import Mathlib

/-!
Package `tronwallet`: BIP32 derivation and Tron address encoding.

A shallow embedding of `bip32.go`, `address.go` and `wallet.go`.

* A Go `[]byte` is a `List Byte`; a `uint32` is a `Nat` reduced `% 2^32` where the
  source's arithmetic can wrap; a `*big.Int` is an `Int`.
* The package-level seams `hmacSha512Impl` and `masterKeyImpl` are explicit
  parameters, as are the library hashes and the curve's base-point multiplication.
* A slice expression that reaches past the length of a slice is a run-time panic,
  `Failure.panic`; a returned `error` is `Failure.error msg`.
-/

namespace Tronwallet

/-! ## Bytes and integers -/

/-- One octet. -/
abbrev Byte := Fin 256

/-- The low eight bits of a natural number, Go's `byte(v)`. -/
def byteOf (v : Nat) : Byte := ⟨v % 256, Nat.mod_lt _ (by decide)⟩

/-- The unsigned big-endian value of a byte string (`big.Int.SetBytes`). -/
def beToNat (bs : List Byte) : Nat := bs.foldl (fun acc b => acc * 256 + b.val) 0

/-- The fixed-width big-endian encoding of `v` in `w` bytes: the low `8 * w` bits of
`v`, most significant byte first (what `ModNScalar.Bytes` and `FieldVal.Bytes` write
for `w = 32`). -/
def natToBE : Nat → Nat → List Byte
  | 0, _ => []
  | w + 1, v => natToBE w (v / 256) ++ [byteOf v]

/-- Worker of `bigBytes`: at most `fuel` digits of `v` in base 256. -/
def bigBytesAux : Nat → Nat → List Byte
  | 0, _ => []
  | fuel + 1, v => if v = 0 then [] else bigBytesAux fuel (v / 256) ++ [byteOf v]

/-- The minimal big-endian encoding of a natural number: no leading zero byte, and
the empty string for zero. -/
def bigBytes (v : Nat) : List Byte := bigBytesAux v v

/-- Go's `(*big.Int).Bytes`: the big-endian bytes of the absolute value. -/
def bigIntBytes (x : Int) : List Byte := bigBytes x.natAbs

/-- Go's `binary.BigEndian.PutUint32(buf, v)` on a fresh 4-byte buffer. -/
def putUint32 (v : Nat) : List Byte :=
  [byteOf (v / 2 ^ 24), byteOf (v / 2 ^ 16), byteOf (v / 2 ^ 8), byteOf v]

/-- Go's `dst := make([]byte, n); copy(dst, src)`: the first `n` bytes of `src`,
followed by the zero bytes of `dst` that `copy` leaves untouched. -/
def copyInto (n : Nat) (src : List Byte) : List Byte :=
  src.take n ++ List.replicate (n - src.length) 0

/-! ## Failures -/

/-- How a call can fail: with a returned `error`, or with a run-time panic. -/
inductive Failure where
  | error (msg : String)
  | panic
  deriving DecidableEq, Repr

/-- The outcome of a call that can fail. -/
abbrev Result (α : Type) := Except Failure α

instance instDecidableEqResult {α : Type} [DecidableEq α] : DecidableEq (Result α)
  | .ok a, .ok b => if h : a = b then isTrue (by rw [h]) else isFalse (by simpa using h)
  | .error a, .error b => if h : a = b then isTrue (by rw [h]) else isFalse (by simpa using h)
  | .ok _, .error _ => isFalse (by simp)
  | .error _, .ok _ => isFalse (by simp)

/-- Go's `s[:n]`; a panic when `n` is past the length of `s`. -/
def sliceTo (s : List Byte) (n : Nat) : Result (List Byte) :=
  if n ≤ s.length then .ok (s.take n) else .error .panic

/-- Go's `s[n:]`; a panic when `n` is past the length of `s`. -/
def sliceFrom (s : List Byte) (n : Nat) : Result (List Byte) :=
  if n ≤ s.length then .ok (s.drop n) else .error .panic

/-! ## secp256k1 scalars (`github.com/decred/dcrd/dcrec/secp256k1/v4`) -/

/-- The order of the secp256k1 group. -/
def curveN : Nat := 0xFFFFFFFFFFFFFFFFFFFFFFFFFFFFFFFEBAAEDCE6AF48A03BBFD25E8CD0364141

/-- The library's `ModNScalar.SetByteSlice`: the slice is cut to its first 32 bytes and
read as a big-endian integer (a shorter slice is zero-padded on the left); the scalar
is set to that integer reduced modulo the group order, and the call reports whether
the integer overflowed, that is, was at least the group order. -/
def setByteSlice (b : List Byte) : Nat × Bool :=
  let v := beToNat (b.take 32)
  (v % curveN, decide (curveN ≤ v))

/-- The library's `ModNScalar.Add`, addition modulo the group order. -/
def scalarAdd (a b : Nat) : Nat := (a + b) % curveN

/-- The library's `ModNScalar.Bytes`, the 32-byte big-endian encoding. -/
def scalarBytes (s : Nat) : List Byte := natToBE 32 s

/-- The library's `PublicKey.SerializeUncompressed`: the marker `0x04` and the two
affine coordinates, each in 32 bytes. -/
def serializeUncompressed (pt : Nat × Nat) : List Byte :=
  (0x04 : Byte) :: (natToBE 32 pt.1 ++ natToBE 32 pt.2)

/-- Go's `ecdsa.PrivateKey`, without its `Curve` field. -/
structure PrivateKey where
  D : Int
  X : Int
  Y : Int
  deriving DecidableEq, Repr

/-- The library's `PrivKeyFromBytes(b).ToECDSA()`: the scalar of `b` as `D`, and the
affine coordinates of the public point, read back from their 32-byte encodings. -/
def privKeyFromBytesToECDSA (scalarBaseMult : Nat → Nat × Nat) (b : List Byte) :
    PrivateKey :=
  let s := (setByteSlice b).1
  let pt := scalarBaseMult s
  { D := (beToNat (scalarBytes s) : Nat)
    X := (beToNat (natToBE 32 pt.1) : Nat)
    Y := (beToNat (natToBE 32 pt.2) : Nat) }

/-! ## `bip32.go` -/

/-- An extended key: private key bytes and chain code. -/
structure ExtKey where
  Key : List Byte
  ChainCode : List Byte
  deriving DecidableEq, Repr

/-- The ASCII bytes of `"Bitcoin seed"`. -/
def bitcoinSeed : List Byte :=
  [0x42, 0x69, 0x74, 0x63, 0x6f, 0x69, 0x6e, 0x20, 0x73, 0x65, 0x65, 0x64]

/-- The source's `masterKey`. -/
def masterKey (hmacSha512Impl : List Byte → List Byte → List Byte) (seed : List Byte) :
    Result ExtKey := do
  let I := hmacSha512Impl bitcoinSeed seed
  let il ← sliceTo I 32
  let k := copyInto 32 il
  let ir ← sliceFrom I 32
  let cc := copyInto 32 ir
  return { Key := k, ChainCode := cc }

/-- The HMAC input of `DeriveHardened`: `0x00`, the key, the offset index. -/
def hardenedData (k : ExtKey) (i : Nat) : List Byte :=
  ((0x00 : Byte) :: k.Key) ++ putUint32 ((i + 0x80000000) % 2 ^ 32)

/-- The source's `ExtKey.DeriveHardened`. -/
def ExtKey.DeriveHardened (hmacSha512Impl : List Byte → List Byte → List Byte) (k : ExtKey)
    (i : Nat) : Result ExtKey := do
  let data := hardenedData k i
  let I := hmacSha512Impl k.ChainCode data
  let il ← sliceTo I 32
  let ir ← sliceFrom I 32
  let parent := setByteSlice k.Key
  if parent.2 then throw (.error "invalid parent key")
  let ilNum := setByteSlice il
  if ilNum.2 then throw (.error "invalid IL")
  let child := scalarAdd parent.1 ilNum.1
  let childSlice := copyInto 32 (scalarBytes child)
  let chainCode := copyInto 32 ir
  return { Key := childSlice, ChainCode := chainCode }

/-- The HMAC input of `Derive`: the uncompressed public key, the index. -/
def normalData (scalarBaseMult : Nat → Nat × Nat) (k : ExtKey) (i : Nat) : List Byte :=
  serializeUncompressed (scalarBaseMult (setByteSlice k.Key).1) ++ putUint32 i

/-- The source's `ExtKey.Derive`. -/
def ExtKey.Derive (hmacSha512Impl : List Byte → List Byte → List Byte)
    (scalarBaseMult : Nat → Nat × Nat) (k : ExtKey) (i : Nat) : Result ExtKey := do
  let privNum := setByteSlice k.Key
  if privNum.2 then throw (.error "invalid private key")
  let data := normalData scalarBaseMult k i
  let I := hmacSha512Impl k.ChainCode data
  let il ← sliceTo I 32
  let ir ← sliceFrom I 32
  let ilNum := setByteSlice il
  if ilNum.2 then throw (.error "invalid IL")
  let child := scalarAdd privNum.1 ilNum.1
  let childSlice := copyInto 32 (scalarBytes child)
  let chainCode := copyInto 32 ir
  return { Key := childSlice, ChainCode := chainCode }

/-- The source's `deriveTronPrivateKey`, the path `m/44'/195'/0'/0/index`. -/
def deriveTronPrivateKey (hmacSha512Impl : List Byte → List Byte → List Byte)
    (scalarBaseMult : Nat → Nat × Nat) (masterKeyImpl : List Byte → Result ExtKey)
    (seed : List Byte) (index : Nat) : Result PrivateKey := do
  let root ← masterKeyImpl seed
  let purpose ← ExtKey.DeriveHardened hmacSha512Impl root 44
  let coin ← ExtKey.DeriveHardened hmacSha512Impl purpose 195
  let account ← ExtKey.DeriveHardened hmacSha512Impl coin 0
  let change ← ExtKey.Derive hmacSha512Impl scalarBaseMult account 0
  let addr ← ExtKey.Derive hmacSha512Impl scalarBaseMult change index
  return privKeyFromBytesToECDSA scalarBaseMult addr.Key

/-! ## `address.go` -/

/-- A 32-byte digest, the output of `sha256.Sum256` and of Keccak-256. -/
abbrev Digest32 := { l : List Byte // l.length = 32 }

/-- One run of the loop `for len(x) < 32 { x = append([]byte{0x00}, x...) }`, with
a bound on the number of iterations. -/
def padLoop : Nat → List Byte → List Byte
  | 0, x => x
  | fuel + 1, x => if x.length < 32 then padLoop fuel ((0x00 : Byte) :: x) else x

/-- The source's `pubUncompressed`. The loop runs at most 32 times. -/
def pubUncompressed (priv : PrivateKey) : List Byte :=
  let x := padLoop 32 (bigIntBytes priv.X)
  let y := padLoop 32 (bigIntBytes priv.Y)
  (0x04 : Byte) :: (x ++ y)

/-- The Bitcoin Base58 alphabet of `btcutil/base58`. -/
def b58Alphabet : List Char :=
  "123456789ABCDEFGHJKLMNPQRSTUVWXYZabcdefghijkmnopqrstuvwxyz".data

/-- The character of a Base58 digit, `alphabet[d]`. -/
def b58Char (d : Nat) : Char := b58Alphabet.getD d '1'

/-- The decoding table `b58[c]` of `btcutil/base58`; `none` stands for the table's
entry 255 of a character outside the alphabet. -/
def b58Index (c : Char) : Option Nat :=
  let i := b58Alphabet.indexOf c
  if i < 58 then some i else none

/-- The loop `for x.Sign() > 0 { x, mod = x / 58, x % 58; answer = append(answer,
alphabet[mod]) }` of `base58.Encode`: least significant digit first. -/
def base58DigitsAux : Nat → Nat → List Char
  | 0, _ => []
  | fuel + 1, x => if x = 0 then [] else b58Char (x % 58) :: base58DigitsAux fuel (x / 58)

/-- The number of zero bytes in front of a byte string. -/
def leadingZeros : List Byte → Nat
  | [] => 0
  | b :: bs => if b = 0 then leadingZeros bs + 1 else 0

/-- The function `base58.Encode` of `btcutil/base58`: the digits of the big-endian value,
one `'1'` for each leading zero byte, the whole reversed. -/
def base58Encode (b : List Byte) : String :=
  let x := beToNat b
  let answer := base58DigitsAux x x ++ List.replicate (leadingZeros b) '1'
  String.mk answer.reverse

/-- The value of a Base58 digit string, `none` when a character is outside the
alphabet. -/
def base58Value (cs : List Char) : Option Nat :=
  cs.foldl (fun acc c => acc.bind fun a => (b58Index c).map fun d => a * 58 + d) (some 0)

/-- The number of `'1'` characters in front of a string. -/
def leadingOnes : List Char → Nat
  | [] => 0
  | c :: cs => if c = '1' then leadingOnes cs + 1 else 0

/-- The function `base58.Decode` of `btcutil/base58`: the empty string on a character outside
the alphabet, else one zero byte for each leading `'1'` and the minimal big-endian
bytes of the value. -/
def base58Decode (s : String) : List Byte :=
  match base58Value s.data with
  | none => []
  | some v => List.replicate (leadingOnes s.data) 0 ++ bigBytes v

/-- The source's `TronAddressFromPrivate`, before the Base58 encoding: the 21-byte
versioned payload `raw` followed by the first four bytes of its double SHA-256. -/
def tronAddressBytes (keccak256 sha256Sum256 : List Byte → Digest32) (priv : PrivateKey) :
    List Byte :=
  let pub := pubUncompressed priv
  let digest := (keccak256 (pub.drop 1)).val
  let raw := (0x41 : Byte) :: digest.drop 12
  let sum1 := (sha256Sum256 raw).val
  let sum2 := (sha256Sum256 sum1).val
  raw ++ sum2.take 4

/-- The source's `TronAddressFromPrivate`. -/
def TronAddressFromPrivate (keccak256 sha256Sum256 : List Byte → Digest32)
    (priv : PrivateKey) : String :=
  base58Encode (tronAddressBytes keccak256 sha256Sum256 priv)

/-! ## `wallet.go` -/

/-- The source's `TronWallet`. -/
structure TronWallet where
  Mnemonic : String
  Seed : List Byte
  deriving DecidableEq, Repr

/-- The source's `NewWallet`. The variadic `length` is a list of the `int` values of
`MnemonicLength` (`Mnemonic12Words = 12`, `Mnemonic24Words = 24`); `bip39NewEntropyImpl`
and `bip39NewMnemonicImpl` are the package's seams, `newSeed` is `bip39.NewSeed`. -/
def NewWallet (bip39NewEntropyImpl : Int → Result (List Byte))
    (bip39NewMnemonicImpl : List Byte → Result String)
    (newSeed : String → String → List Byte) (length : List Int) : Result TronWallet := do
  let l : Int := match length with
    | [] => 12
    | l0 :: _ => l0
  let entropyBits : Int := if l = 24 then 256 else 128
  let entropy ← bip39NewEntropyImpl entropyBits
  let mn ← bip39NewMnemonicImpl entropy
  let seed := newSeed mn ""
  return { Mnemonic := mn, Seed := seed }

/-- The source's `RestoreWallet`; `isMnemonicValid` is `bip39.IsMnemonicValid` and
`newSeed` is `bip39.NewSeed`. -/
def RestoreWallet (isMnemonicValid : String → Bool) (newSeed : String → String → List Byte)
    (mnemonic : String) : Result TronWallet :=
  if !isMnemonicValid mnemonic then .error (.error "invalid mnemonic")
  else
    let seed := newSeed mnemonic ""
    .ok { Mnemonic := mnemonic, Seed := seed }

/-- The source's `TronWallet.Derive`. -/
def TronWallet.Derive (hmacSha512Impl : List Byte → List Byte → List Byte)
    (scalarBaseMult : Nat → Nat × Nat) (masterKeyImpl : List Byte → Result ExtKey)
    (w : TronWallet) (index : Nat) : Result PrivateKey :=
  deriveTronPrivateKey hmacSha512Impl scalarBaseMult masterKeyImpl w.Seed index

/-- The source's `PrivateKeyToBytes`. -/
def PrivateKeyToBytes (priv : PrivateKey) : List Byte :=
  let b := bigIntBytes priv.D
  if b.length < 32 then List.replicate (32 - b.length) (0x00 : Byte) ++ b else b

/-- A lowercase hexadecimal digit. -/
def hexDigit (n : Nat) : Char := "0123456789abcdef".data.getD n '0'

/-- Go's `fmt.Sprintf("%x", b)` on a byte slice: two lowercase hexadecimal digits for
each byte, the high nibble first. -/
def hexEncode (b : List Byte) : String :=
  String.mk (b.flatMap fun x => [hexDigit (x.val / 16), hexDigit (x.val % 16)])

/-- The source's `PrivateKeyToHex`. -/
def PrivateKeyToHex (priv : PrivateKey) : String := hexEncode (PrivateKeyToBytes priv)

/-! ## The derivation path, step by step -/

/-- One step of a derivation path. -/
inductive PathStep where
  | hardened (i : Nat)
  | normal (i : Nat)
  deriving DecidableEq, Repr

/-- The five steps that `deriveTronPrivateKey` applies to the master key, in order. -/
def tronPath (index : Nat) : List PathStep :=
  [.hardened 44, .hardened 195, .hardened 0, .normal 0, .normal index]

/-- The call that a step stands for. -/
def applyStep (hmacSha512Impl : List Byte → List Byte → List Byte)
    (scalarBaseMult : Nat → Nat × Nat) (k : ExtKey) : PathStep → Result ExtKey
  | .hardened i => ExtKey.DeriveHardened hmacSha512Impl k i
  | .normal i => ExtKey.Derive hmacSha512Impl scalarBaseMult k i

/-- The HMAC output `I` that a step computes on the parent `k`. -/
def stepHmac (hmacSha512Impl : List Byte → List Byte → List Byte)
    (scalarBaseMult : Nat → Nat × Nat) (k : ExtKey) : PathStep → List Byte
  | .hardened i => hmacSha512Impl k.ChainCode (hardenedData k i)
  | .normal i => hmacSha512Impl k.ChainCode (normalData scalarBaseMult k i)

/-- The steps of a list applied one after the other, stopping at the first failure. -/
def runPath (hmacSha512Impl : List Byte → List Byte → List Byte)
    (scalarBaseMult : Nat → Nat × Nat) : List PathStep → ExtKey → Result ExtKey
  | [], k => .ok k
  | s :: rest, k =>
    match applyStep hmacSha512Impl scalarBaseMult k s with
    | .ok c => runPath hmacSha512Impl scalarBaseMult rest c
    | .error e => .error e

/-! ## Stand-ins for the collaborators, as the package's tests inject them -/

/-- An HMAC stand-in that returns `il ++ ir` on every input. -/
def fixedHmac (il ir : List Byte) : List Byte → List Byte → List Byte :=
  fun _ _ => il ++ ir

/-- The stand-in of `TestDeriveTronPrivateKey_ErrorAtSteps`: 32 bytes `0xff` and 32
zero bytes when the last four bytes of the data decode to `target`, and otherwise a
fixed output whose left half is the scalar one. -/
def invalidFor (target : Nat) : List Byte → List Byte → List Byte :=
  fun _ data =>
    if 4 ≤ data.length ∧ beToNat (data.drop (data.length - 4)) = target then
      List.replicate 32 0xff ++ List.replicate 32 0
    else List.replicate 31 0 ++ [1] ++ List.replicate 32 7

/-- A stand-in for the base-point multiplication of the curve. -/
def stubBaseMult : Nat → Nat × Nat := fun k => (k + 2, k + 3)

/-- A stand-in for a 32-byte hash: the first byte of the input, or zero, 32 times. -/
def stubDigest : List Byte → Digest32 :=
  fun m => ⟨List.replicate 32 (m.headD 0), List.length_replicate _ _⟩

/-- The 32-byte big-endian encoding of the scalar one. -/
def oneKey : List Byte := List.replicate 31 0 ++ [1]

/-- Thirty-two zero bytes. -/
def zeroKey : List Byte := List.replicate 32 0

/-- A stand-in for `bip39.NewEntropy`: `bits / 8` bytes, all equal to one. -/
def stubEntropy : Int → Result (List Byte) :=
  fun bits => .ok (List.replicate (bits.toNat / 8) 1)

/-- A stand-in for `bip39.NewMnemonic`: a phrase that tells the two entropy sizes apart. -/
def stubMnemonic : List Byte → Result String :=
  fun entropy => .ok (if entropy.length = 32 then "twenty-four words" else "twelve words")

/-- A stand-in for `bip39.NewSeed`: the lengths of the phrase and of the passphrase. -/
def stubSeed : String → String → List Byte :=
  fun mnemonic passphrase => [byteOf mnemonic.length, byteOf passphrase.length]

/-- A stand-in for `bip39.IsMnemonicValid`: a phrase of more than three characters. -/
def stubValid : String → Bool := fun mnemonic => decide (3 < mnemonic.length)

/-! ## Reference definitions, written from the specification -/

/-- The three ways `NewWallet` is called: with no length, with `Mnemonic12Words`, with
`Mnemonic24Words`. -/
inductive WordCount where
  | unspecified
  | words12
  | words24
  deriving DecidableEq, Repr

/-- The `length` arguments of a call of `NewWallet`. -/
def WordCount.args : WordCount → List Int
  | .unspecified => []
  | .words12 => [12]
  | .words24 => [24]

/-- The entropy size of the specification: 128 bits for 12 words, which is the default,
and 256 bits for 24 words. -/
def WordCount.entropyBits : WordCount → Int
  | .unspecified => 128
  | .words12 => 128
  | .words24 => 256

/-- Reference for `NewWallet`, from the specification: request the entropy; if that fails
return its error; else ask for a phrase from that entropy; if that fails return its error;
else the wallet of that phrase and of the seed of the phrase with the empty passphrase. -/
def newWalletReference (generateEntropy : Int → Result (List Byte))
    (generate : List Byte → Result String) (seedFrom : String → String → List Byte)
    (wc : WordCount) : Result TronWallet :=
  match generateEntropy wc.entropyBits with
  | .error e => .error e
  | .ok entropy =>
    match generate entropy with
    | .error e => .error e
    | .ok phrase => .ok { Mnemonic := phrase, Seed := seedFrom phrase "" }

/-- Reference for a derivation in the hardened layout whose four index bytes encode
`encoded` as they stand: the HMAC data is `0x00 || Key || be32(encoded)`, the child scalar
is the parent scalar plus `IL` modulo the group order, the child chain code is `IR`. -/
def hardenedLayoutDerive (hmac : List Byte → List Byte → List Byte) (k : ExtKey)
    (encoded : Nat) : Result ExtKey := do
  let I := hmac k.ChainCode (((0x00 : Byte) :: k.Key) ++ natToBE 4 encoded)
  let il ← sliceTo I 32
  let ir ← sliceFrom I 32
  let parent := setByteSlice k.Key
  if parent.2 then throw (.error "invalid parent key")
  let ilNum := setByteSlice il
  if ilNum.2 then throw (.error "invalid IL")
  return { Key := copyInto 32 (scalarBytes (scalarAdd parent.1 ilNum.1))
           ChainCode := copyInto 32 ir }

/-! ## Big-endian encodings -/

theorem beToNat_append (xs ys : List Byte) :
    beToNat (xs ++ ys) = beToNat xs * 256 ^ ys.length + beToNat ys := by
  induction ys using List.reverseRecOn generalizing xs with
  | nil => simp [beToNat]
  | append_singleton ys y ih =>
    have h1 : beToNat (xs ++ (ys ++ [y])) = beToNat (xs ++ ys) * 256 + y.val := by
      simp [beToNat, List.foldl_append]
    have h2 : beToNat (ys ++ [y]) = beToNat ys * 256 + y.val := by
      simp [beToNat, List.foldl_append]
    rw [h1, h2, ih]
    simp [pow_succ]
    ring

theorem beToNat_snoc (xs : List Byte) (y : Byte) :
    beToNat (xs ++ [y]) = beToNat xs * 256 + y.val := by
  simp [beToNat, List.foldl_append]

theorem beToNat_cons (x : Byte) (xs : List Byte) :
    beToNat (x :: xs) = x.val * 256 ^ xs.length + beToNat xs := by
  have := beToNat_append [x] xs
  simpa [beToNat] using this

theorem beToNat_lt (bs : List Byte) : beToNat bs < 256 ^ bs.length := by
  induction bs using List.reverseRecOn with
  | nil => simp [beToNat]
  | append_singleton ys y ih =>
    rw [beToNat_snoc]
    have hy := y.isLt
    simp only [List.length_append, List.length_singleton, pow_succ]
    omega

theorem natToBE_length (w v : Nat) : (natToBE w v).length = w := by
  induction w generalizing v with
  | zero => rfl
  | succ w ih => simp [natToBE, ih]

theorem beToNat_natToBE (w v : Nat) : beToNat (natToBE w v) = v % 256 ^ w := by
  induction w generalizing v with
  | zero => simp [natToBE, beToNat, Nat.mod_one]
  | succ w ih =>
    rw [natToBE, beToNat_snoc, ih]
    simp only [byteOf, pow_succ]
    rw [Nat.mul_comm (256 ^ w) 256, Nat.mod_mul]
    omega

theorem natToBE_beToNat (bs : List Byte) : natToBE bs.length (beToNat bs) = bs := by
  induction bs using List.reverseRecOn with
  | nil => rfl
  | append_singleton ys y ih =>
    rw [beToNat_snoc]
    simp only [List.length_append, List.length_singleton, natToBE]
    have hy := y.isLt
    have h1 : (beToNat ys * 256 + y.val) / 256 = beToNat ys := by omega
    have h2 : byteOf (beToNat ys * 256 + y.val) = y := by
      apply Fin.ext
      simp only [byteOf]
      omega
    rw [h1, h2, ih]

theorem natToBE_zero (w : Nat) : natToBE w 0 = List.replicate w 0 := by
  induction w with
  | zero => rfl
  | succ w ih =>
    rw [natToBE, Nat.zero_div, ih, List.replicate_succ']
    rfl

theorem bigBytesAux_pad (fuel : Nat) : ∀ (w v : Nat), v ≤ fuel → v < 256 ^ w →
    (bigBytesAux fuel v).length ≤ w ∧
      List.replicate (w - (bigBytesAux fuel v).length) 0 ++ bigBytesAux fuel v = natToBE w v := by
  induction fuel with
  | zero =>
    intro w v hv _
    have : v = 0 := by omega
    subst this
    simp [bigBytesAux, natToBE_zero]
  | succ fuel ih =>
    intro w v hv hw
    by_cases h0 : v = 0
    · subst h0
      simp [bigBytesAux, natToBE_zero]
    · cases w with
      | zero => simp at hw; omega
      | succ w =>
        have hdiv : v / 256 ≤ fuel := by omega
        have hlt : v / 256 < 256 ^ w := by
          rw [pow_succ] at hw
          omega
        obtain ⟨hlen, heq⟩ := ih w (v / 256) hdiv hlt
        simp only [bigBytesAux, h0, if_false, List.length_append, List.length_singleton,
          natToBE]
        refine ⟨by omega, ?_⟩
        rw [← heq, Nat.add_sub_add_right, List.append_assoc]

theorem bigBytes_pad (w v : Nat) (h : v < 256 ^ w) :
    (bigBytes v).length ≤ w ∧
      List.replicate (w - (bigBytes v).length) 0 ++ bigBytes v = natToBE w v :=
  bigBytesAux_pad v w v (Nat.le_refl v) h

theorem beToNat_replicate_zero (k : Nat) (bs : List Byte) :
    beToNat (List.replicate k 0 ++ bs) = beToNat bs := by
  induction k with
  | zero => rfl
  | succ k ih =>
    rw [List.replicate_succ, List.cons_append, beToNat_cons, ih]
    simp

theorem beToNat_bigBytes (v : Nat) : beToNat (bigBytes v) = v := by
  have hlt : v < 256 ^ v := by
    calc v < 2 ^ v := Nat.lt_two_pow v
      _ ≤ 256 ^ v := Nat.pow_le_pow_left (by decide) v
  have h := (bigBytes_pad v v hlt).2
  have h2 := congrArg beToNat h
  rw [beToNat_replicate_zero, beToNat_natToBE, Nat.mod_eq_of_lt hlt] at h2
  exact h2

theorem copyInto_of_length (n : Nat) (src : List Byte) (h : src.length = n) :
    copyInto n src = src := by
  subst h
  simp [copyInto]

theorem putUint32_eq (v : Nat) : putUint32 v = natToBE 4 v := by
  have h : natToBE 4 v =
      [byteOf (v / 256 / 256 / 256), byteOf (v / 256 / 256), byteOf (v / 256), byteOf v] := rfl
  rw [h, putUint32, Nat.div_div_eq_div_mul, Nat.div_div_eq_div_mul, Nat.div_div_eq_div_mul]
  norm_num

theorem padLoop_eq (fuel : Nat) : ∀ x : List Byte, 32 - x.length ≤ fuel →
    padLoop fuel x = List.replicate (32 - x.length) 0 ++ x := by
  induction fuel with
  | zero =>
    intro x hx
    have : 32 - x.length = 0 := by omega
    simp [padLoop, this]
  | succ fuel ih =>
    intro x hx
    by_cases hlt : x.length < 32
    · simp only [padLoop, hlt, if_true]
      rw [ih _ (by simp; omega)]
      have : 32 - x.length = (32 - (x.length + 1)) + 1 := by omega
      rw [List.length_cons, this, List.replicate_succ']
      simp
    · have : 32 - x.length = 0 := by omega
      simp [padLoop, hlt, this]

/-! ## The derivation steps, unfolded -/

theorem DeriveHardened_eq (hmac : List Byte → List Byte → List Byte) (k : ExtKey) (i : Nat)
    (hlen : 32 ≤ (hmac k.ChainCode (hardenedData k i)).length) :
    ExtKey.DeriveHardened hmac k i =
      if curveN ≤ beToNat (k.Key.take 32) then .error (.error "invalid parent key")
      else if curveN ≤ beToNat ((hmac k.ChainCode (hardenedData k i)).take 32) then
        .error (.error "invalid IL")
      else .ok
        { Key := natToBE 32 ((beToNat (k.Key.take 32) % curveN +
            beToNat ((hmac k.ChainCode (hardenedData k i)).take 32) % curveN) % curveN)
          ChainCode := copyInto 32 ((hmac k.ChainCode (hardenedData k i)).drop 32) } := by
  unfold ExtKey.DeriveHardened
  simp only [sliceTo, sliceFrom, hlen, if_true, setByteSlice, scalarAdd, scalarBytes,
    List.take_take, Nat.min_self, bind, Except.bind, pure, Except.pure, throw, throwThe,
    MonadExceptOf.throw, decide_eq_true_eq]
  by_cases h1 : curveN ≤ beToNat (k.Key.take 32)
  · simp [h1]
  · by_cases h2 : curveN ≤ beToNat ((hmac k.ChainCode (hardenedData k i)).take 32)
    · simp [h1, h2]
    · simp [h1, h2, copyInto_of_length, natToBE_length]

theorem Derive_invalid_parent (hmac : List Byte → List Byte → List Byte)
    (mul : Nat → Nat × Nat) (k : ExtKey) (i : Nat)
    (h : curveN ≤ beToNat (k.Key.take 32)) :
    ExtKey.Derive hmac mul k i = .error (.error "invalid private key") := by
  unfold ExtKey.Derive
  simp [setByteSlice, h, bind, Except.bind, throw, throwThe, MonadExceptOf.throw]

theorem Derive_eq (hmac : List Byte → List Byte → List Byte) (mul : Nat → Nat × Nat)
    (k : ExtKey) (i : Nat)
    (hlen : 32 ≤ (hmac k.ChainCode (normalData mul k i)).length) :
    ExtKey.Derive hmac mul k i =
      if curveN ≤ beToNat (k.Key.take 32) then .error (.error "invalid private key")
      else if curveN ≤ beToNat ((hmac k.ChainCode (normalData mul k i)).take 32) then
        .error (.error "invalid IL")
      else .ok
        { Key := natToBE 32 ((beToNat (k.Key.take 32) % curveN +
            beToNat ((hmac k.ChainCode (normalData mul k i)).take 32) % curveN) % curveN)
          ChainCode := copyInto 32 ((hmac k.ChainCode (normalData mul k i)).drop 32) } := by
  unfold ExtKey.Derive
  simp only [sliceTo, sliceFrom, hlen, if_true, setByteSlice, scalarAdd, scalarBytes,
    List.take_take, Nat.min_self, bind, Except.bind, pure, Except.pure, throw, throwThe,
    MonadExceptOf.throw, decide_eq_true_eq]
  by_cases h1 : curveN ≤ beToNat (k.Key.take 32)
  · simp [h1]
  · by_cases h2 : curveN ≤ beToNat ((hmac k.ChainCode (normalData mul k i)).take 32)
    · simp [h1, h2]
    · simp [h1, h2, copyInto_of_length, natToBE_length]

theorem curveN_lt : curveN < 256 ^ 32 := by decide

theorem pow31_lt_curveN : 256 ^ 31 < curveN := by decide

/-- A byte string whose first 32 bytes reach the group order has at least 32 bytes. -/
theorem length_of_curveN_le (l : List Byte) (h : curveN ≤ beToNat (l.take 32)) :
    32 ≤ l.length := by
  by_contra hlt
  have hlen : (l.take 32).length ≤ 31 := by
    rw [List.length_take]
    omega
  have h1 := beToNat_lt (l.take 32)
  have h2 : 256 ^ (l.take 32).length ≤ 256 ^ 31 := Nat.pow_le_pow_right (by decide) hlen
  have h3 := pow31_lt_curveN
  omega

theorem take_of_length {l : List Byte} {n : Nat} (h : l.length = n) : l.take n = l := by
  subst h
  exact List.take_length l

theorem masterKey_eq (hmac : List Byte → List Byte → List Byte) (seed : List Byte)
    (h : (hmac bitcoinSeed seed).length = 64) :
    masterKey hmac seed = .ok
      { Key := (hmac bitcoinSeed seed).take 32
        ChainCode := (hmac bitcoinSeed seed).drop 32 } := by
  unfold masterKey
  have h32 : 32 ≤ (hmac bitcoinSeed seed).length := by omega
  simp only [sliceTo, sliceFrom, h32, if_true, bind, Except.bind, pure, Except.pure]
  rw [copyInto_of_length, copyInto_of_length]
  · rw [List.length_drop]; omega
  · rw [List.length_take]; omega

theorem DeriveHardened_panic (hmac : List Byte → List Byte → List Byte) (k : ExtKey)
    (i : Nat) (hlen : ¬ 32 ≤ (hmac k.ChainCode (hardenedData k i)).length) :
    ExtKey.DeriveHardened hmac k i = .error .panic := by
  unfold ExtKey.DeriveHardened
  simp [sliceTo, hlen, bind, Except.bind]

theorem Derive_panic (hmac : List Byte → List Byte → List Byte) (mul : Nat → Nat × Nat)
    (k : ExtKey) (i : Nat) (hp : ¬ curveN ≤ beToNat (k.Key.take 32))
    (hlen : ¬ 32 ≤ (hmac k.ChainCode (normalData mul k i)).length) :
    ExtKey.Derive hmac mul k i = .error .panic := by
  unfold ExtKey.Derive
  simp [setByteSlice, hp, sliceTo, hlen, bind, Except.bind, pure, Except.pure]

/-- What a successful `DeriveHardened` has computed. -/
theorem DeriveHardened_ok_inv (hmac : List Byte → List Byte → List Byte) (k c : ExtKey)
    (i : Nat) (h : ExtKey.DeriveHardened hmac k i = .ok c) :
    32 ≤ (hmac k.ChainCode (hardenedData k i)).length ∧
    beToNat (k.Key.take 32) < curveN ∧
    beToNat ((hmac k.ChainCode (hardenedData k i)).take 32) < curveN ∧
    c = { Key := natToBE 32 ((beToNat (k.Key.take 32) % curveN +
            beToNat ((hmac k.ChainCode (hardenedData k i)).take 32) % curveN) % curveN)
          ChainCode := copyInto 32 ((hmac k.ChainCode (hardenedData k i)).drop 32) } := by
  by_cases hlen : 32 ≤ (hmac k.ChainCode (hardenedData k i)).length
  · rw [DeriveHardened_eq hmac k i hlen] at h
    split_ifs at h with h1 h2
    exact ⟨hlen, by omega, by omega, (Except.ok.inj h).symm⟩
  · rw [DeriveHardened_panic hmac k i hlen] at h
    exact absurd h (by simp)

/-- What a successful `Derive` has computed. -/
theorem Derive_ok_inv (hmac : List Byte → List Byte → List Byte) (mul : Nat → Nat × Nat)
    (k c : ExtKey) (i : Nat) (h : ExtKey.Derive hmac mul k i = .ok c) :
    32 ≤ (hmac k.ChainCode (normalData mul k i)).length ∧
    beToNat (k.Key.take 32) < curveN ∧
    beToNat ((hmac k.ChainCode (normalData mul k i)).take 32) < curveN ∧
    c = { Key := natToBE 32 ((beToNat (k.Key.take 32) % curveN +
            beToNat ((hmac k.ChainCode (normalData mul k i)).take 32) % curveN) % curveN)
          ChainCode := copyInto 32 ((hmac k.ChainCode (normalData mul k i)).drop 32) } := by
  by_cases hp : curveN ≤ beToNat (k.Key.take 32)
  · rw [Derive_invalid_parent hmac mul k i hp] at h
    exact absurd h (by simp)
  · by_cases hlen : 32 ≤ (hmac k.ChainCode (normalData mul k i)).length
    · rw [Derive_eq hmac mul k i hlen] at h
      split_ifs at h with h2
      exact ⟨hlen, by omega, by omega, (Except.ok.inj h).symm⟩
    · rw [Derive_panic hmac mul k i hp hlen] at h
      exact absurd h (by simp)

theorem PrivateKeyToBytes_of_lt (s : Nat) (x y : Int) (hs : s < 256 ^ 32) :
    PrivateKeyToBytes { D := (s : Int), X := x, Y := y } = natToBE 32 s := by
  obtain ⟨hlen, hpad⟩ := bigBytes_pad 32 s hs
  simp only [PrivateKeyToBytes, bigIntBytes, Int.natAbs_ofNat]
  split_ifs with hlt
  · exact hpad
  · have h0 : 32 - (bigBytes s).length = 0 := by omega
    rw [h0] at hpad
    simpa using hpad

theorem privKeyFromBytesToECDSA_D (mul : Nat → Nat × Nat) (s : Nat) (hs : s < curveN) :
    (privKeyFromBytesToECDSA mul (natToBE 32 s)).D = (s : Int) := by
  have h256 : s < 256 ^ 32 := Nat.lt_trans hs curveN_lt
  simp only [privKeyFromBytesToECDSA, setByteSlice, scalarBytes]
  rw [take_of_length (natToBE_length 32 s), beToNat_natToBE, beToNat_natToBE,
    Nat.mod_eq_of_lt h256, Nat.mod_eq_of_lt hs, Nat.mod_eq_of_lt h256]

theorem runPath_error_at (hmac : List Byte → List Byte → List Byte) (mul : Nat → Nat × Nat)
    (steps : List PathStep) : ∀ (j : Nat) (hj : j < steps.length) (root parent : ExtKey)
    (e : Failure), runPath hmac mul (steps.take j) root = .ok parent →
    applyStep hmac mul parent (steps.get ⟨j, hj⟩) = .error e →
    runPath hmac mul steps root = .error e := by
  induction steps with
  | nil => intro j hj; exact absurd hj (Nat.not_lt_zero _)
  | cons s rest ih =>
    intro j hj root parent e hpre herr
    cases j with
    | zero =>
      simp only [List.take_zero, runPath, Except.ok.injEq] at hpre
      subst hpre
      have herr2 : applyStep hmac mul root s = .error e := herr
      simp [runPath, herr2]
    | succ j =>
      simp only [List.take_succ_cons, runPath] at hpre
      cases hs : applyStep hmac mul root s with
      | error e2 => rw [hs] at hpre; exact absurd hpre (by simp)
      | ok c =>
        rw [hs] at hpre
        simp only [runPath, hs]
        exact ih j (Nat.lt_of_succ_lt_succ hj) c parent e hpre herr

theorem deriveTronPrivateKey_eq_runPath (hmac : List Byte → List Byte → List Byte)
    (mul : Nat → Nat × Nat) (mk : List Byte → Result ExtKey) (seed : List Byte)
    (index : Nat) :
    deriveTronPrivateKey hmac mul mk seed index =
      match mk seed with
      | .error e => .error e
      | .ok root =>
        match runPath hmac mul (tronPath index) root with
        | .error e => .error e
        | .ok addr => .ok (privKeyFromBytesToECDSA mul addr.Key) := by
  unfold deriveTronPrivateKey
  cases h0 : mk seed with
  | error e => rfl
  | ok root =>
    simp only [tronPath, runPath, applyStep, bind, Except.bind, pure, Except.pure]
    cases ExtKey.DeriveHardened hmac root 44 with
    | error e => rfl
    | ok k1 =>
      dsimp only
      cases ExtKey.DeriveHardened hmac k1 195 with
      | error e => rfl
      | ok k2 =>
        dsimp only
        cases ExtKey.DeriveHardened hmac k2 0 with
        | error e => rfl
        | ok k3 =>
          dsimp only
          cases ExtKey.Derive hmac mul k3 0 with
          | error e => rfl
          | ok k4 =>
            dsimp only
            cases ExtKey.Derive hmac mul k4 index with
            | error e => rfl
            | ok k5 => rfl

/-- A step whose `IL` reaches the group order returns an error. -/
theorem applyStep_invalid_IL (hmac : List Byte → List Byte → List Byte)
    (mul : Nat → Nat × Nat) (k : ExtKey) (s : PathStep)
    (h : curveN ≤ beToNat ((stepHmac hmac mul k s).take 32)) :
    ∃ msg, applyStep hmac mul k s = .error (.error msg) := by
  have hlen := length_of_curveN_le _ h
  cases s with
  | hardened i =>
    simp only [stepHmac] at h hlen
    simp only [applyStep]
    rw [DeriveHardened_eq hmac k i hlen]
    by_cases hp : curveN ≤ beToNat (k.Key.take 32)
    · exact ⟨"invalid parent key", by rw [if_pos hp]⟩
    · exact ⟨"invalid IL", by rw [if_neg hp, if_pos h]⟩
  | normal i =>
    simp only [stepHmac] at h hlen
    simp only [applyStep]
    rw [Derive_eq hmac mul k i hlen]
    by_cases hp : curveN ≤ beToNat (k.Key.take 32)
    · exact ⟨"invalid private key", by rw [if_pos hp]⟩
    · exact ⟨"invalid IL", by rw [if_neg hp, if_pos h]⟩

/-- The padded minimal encoding of a coordinate below `2^256` is its 32-byte encoding. -/
theorem padLoop_bigIntBytes (x : Int) (h0 : 0 ≤ x) (h : x < 2 ^ 256) :
    padLoop 32 (bigIntBytes x) = natToBE 32 x.toNat ∧
    List.replicate (32 - (bigIntBytes x).length) 0 ++ bigIntBytes x = natToBE 32 x.toNat := by
  have hn : x.natAbs = x.toNat := by omega
  have hlt : x.toNat < 256 ^ 32 := by
    have : (256 : Nat) ^ 32 = 2 ^ 256 := by norm_num
    omega
  have hpad := (bigBytes_pad 32 x.toNat hlt).2
  simp only [bigIntBytes, hn]
  exact ⟨by rw [padLoop_eq 32 _ (by omega), hpad], hpad⟩

theorem pubUncompressed_eq (priv : PrivateKey) (hX0 : 0 ≤ priv.X) (hX : priv.X < 2 ^ 256)
    (hY0 : 0 ≤ priv.Y) (hY : priv.Y < 2 ^ 256) :
    pubUncompressed priv =
      (0x04 : Byte) :: (natToBE 32 priv.X.toNat ++ natToBE 32 priv.Y.toNat) := by
  simp only [pubUncompressed, (padLoop_bigIntBytes priv.X hX0 hX).1,
    (padLoop_bigIntBytes priv.Y hY0 hY).1]

theorem digest_length (d : Digest32) : d.val.length = 32 := d.property

theorem tronAddressBytes_length (keccak256 sha256Sum256 : List Byte → Digest32)
    (priv : PrivateKey) : (tronAddressBytes keccak256 sha256Sum256 priv).length = 25 := by
  simp [tronAddressBytes, digest_length]

/-! ## Base58 -/

theorem b58Index_b58Char : ∀ d, d < 58 → b58Index (b58Char d) = some d := by decide

theorem b58Char_ne_one : ∀ d, d < 58 → d ≠ 0 → b58Char d ≠ '1' := by decide

theorem base58DigitsAux_eq (fuel : Nat) : ∀ x, x ≤ fuel →
    base58DigitsAux fuel x = (Nat.digits 58 x).map b58Char := by
  induction fuel with
  | zero =>
    intro x hx
    have : x = 0 := by omega
    subst this
    simp [base58DigitsAux]
  | succ fuel ih =>
    intro x hx
    by_cases h0 : x = 0
    · subst h0
      simp [base58DigitsAux]
    · have hpos : 0 < x := Nat.pos_of_ne_zero h0
      rw [Nat.digits_def' (by decide) hpos]
      simp only [base58DigitsAux, h0, if_false, List.map_cons]
      rw [ih (x / 58) (by omega)]

theorem base58Value_map (ds : List Nat) : ∀ a : Nat, (∀ d ∈ ds, d < 58) →
    (ds.map b58Char).foldl
        (fun acc c => acc.bind fun a => (b58Index c).map fun d => a * 58 + d) (some a)
      = some (ds.foldl (fun a d => a * 58 + d) a) := by
  induction ds with
  | nil => intro a _; rfl
  | cons d ds ih =>
    intro a hd
    have hlt : d < 58 := hd d (List.mem_cons_self d ds)
    simp only [List.map_cons, List.foldl_cons, Option.bind, b58Index_b58Char d hlt,
      Option.map]
    exact ih (a * 58 + d) (fun e he => hd e (List.mem_cons_of_mem d he))

theorem foldl_reverse_digits (L : List Nat) :
    L.reverse.foldl (fun a d => a * 58 + d) 0 = Nat.ofDigits 58 L := by
  induction L with
  | nil => rfl
  | cons d L ih =>
    rw [List.reverse_cons, List.foldl_append, ih, Nat.ofDigits_cons]
    simp only [List.foldl_cons, List.foldl_nil, Nat.cast_id]
    ring

theorem foldl_replicate_zero (z : Nat) (L : List Nat) :
    (List.replicate z 0 ++ L).foldl (fun a d => a * 58 + d) 0
      = L.foldl (fun a d => a * 58 + d) 0 := by
  induction z with
  | zero => rfl
  | succ z ih => rw [List.replicate_succ, List.cons_append, List.foldl_cons]; exact ih

theorem leadingOnes_replicate (z : Nat) (cs : List Char) :
    leadingOnes (List.replicate z '1' ++ cs) = z + leadingOnes cs := by
  induction z with
  | zero => simp
  | succ z ih =>
    rw [List.replicate_succ, List.cons_append, leadingOnes, if_pos rfl, ih]
    omega

theorem leadingOnes_of_head (cs : List Char) (h : cs.head? ≠ some '1') :
    leadingOnes cs = 0 := by
  cases cs with
  | nil => rfl
  | cons c cs =>
    have hc : c ≠ '1' := fun hc => h (by rw [hc]; rfl)
    simp [leadingOnes, hc]

theorem leadingOnes_digits (x : Nat) :
    leadingOnes ((Nat.digits 58 x).map b58Char).reverse = 0 := by
  apply leadingOnes_of_head
  rw [List.head?_reverse, List.getLast?_map]
  by_cases h0 : x = 0
  · subst h0
    simp
  · have hne : Nat.digits 58 x ≠ [] := Nat.digits_ne_nil_iff_ne_zero.mpr h0
    rw [List.getLast?_eq_getLast _ hne]
    have hlast := Nat.getLast_digit_ne_zero 58 h0
    have hlt : (Nat.digits 58 x).getLast hne < 58 :=
      Nat.digits_lt_base (by decide) (List.getLast_mem hne)
    intro heq
    simp only [Option.map, Option.some.injEq] at heq
    exact b58Char_ne_one _ hlt hlast heq

/-- The leading zero bytes and the minimal bytes of the value make up the byte string. -/
theorem leadingZeros_bigBytes (b : List Byte) :
    List.replicate (leadingZeros b) 0 ++ bigBytes (beToNat b) = b := by
  induction b with
  | nil => rfl
  | cons c bs ih =>
    by_cases hc : c = 0
    · subst hc
      have hval : beToNat ((0 : Byte) :: bs) = beToNat bs := by
        rw [beToNat_cons]; simp
      rw [leadingZeros, if_pos rfl, hval, List.replicate_succ, List.cons_append, ih]
    · rw [leadingZeros, if_neg hc, List.replicate_zero, List.nil_append]
      obtain ⟨hlen, hpad⟩ := bigBytes_pad (c :: bs).length (beToNat (c :: bs)) (beToNat_lt _)
      rw [natToBE_beToNat] at hpad
      by_cases hk : (c :: bs).length - (bigBytes (beToNat (c :: bs))).length = 0
      · rw [hk] at hpad
        simpa using hpad
      · obtain ⟨m, hm⟩ := Nat.exists_eq_succ_of_ne_zero hk
        rw [hm, List.replicate_succ, List.cons_append] at hpad
        exact absurd (List.cons.inj hpad).1.symm hc

theorem base58Decode_encode (b : List Byte) : base58Decode (base58Encode b) = b := by
  have hchars : (base58Encode b).data =
      (List.replicate (leadingZeros b) 0 ++ (Nat.digits 58 (beToNat b)).reverse).map b58Char := by
    simp only [base58Encode, base58DigitsAux_eq _ _ (Nat.le_refl _), List.reverse_append,
      List.reverse_replicate, List.map_append, List.map_replicate, List.map_reverse]
    rfl
  have hdig : ∀ d ∈ List.replicate (leadingZeros b) 0 ++ (Nat.digits 58 (beToNat b)).reverse,
      d < 58 := by
    intro d hd
    rcases List.mem_append.mp hd with h | h
    · rw [(List.mem_replicate.mp h).2]; decide
    · exact Nat.digits_lt_base (by decide) (List.mem_reverse.mp h)
  have hval : base58Value (base58Encode b).data = some (beToNat b) := by
    rw [hchars, base58Value, base58Value_map _ 0 hdig, foldl_replicate_zero,
      foldl_reverse_digits, Nat.ofDigits_digits]
  have hones : leadingOnes (base58Encode b).data = leadingZeros b := by
    rw [hchars, List.map_append, List.map_replicate, List.map_reverse]
    have h1 : b58Char 0 = '1' := rfl
    rw [h1, leadingOnes_replicate, leadingOnes_digits]
    rfl
  simp only [base58Decode, hval, hones]
  exact leadingZeros_bigBytes b

/-! ## The claims -/

/-- C3: for an extended key whose 32-byte `Key` has big-endian value `p < n` and an index
`i < 2^31`, with `I` the 64-byte HMAC-SHA512 of `0x00 || Key || be32(i + 2^31)` under the
chain code: the data has 37 bytes and its last four decode to `i + 2^31`; if
`IL = I[0:32] < n`, `DeriveHardened` succeeds with `Key` the 32-byte big-endian encoding
of `(p + IL) mod n` and `ChainCode = I[32:64]`. -/
theorem DeriveHardened_spec (hmac : List Byte → List Byte → List Byte) (k : ExtKey)
    (i : Nat) (hk : k.Key.length = 32) (hp : beToNat k.Key < curveN) (hi : i < 2 ^ 31)
    (hI : (hmac k.ChainCode (((0x00 : Byte) :: k.Key) ++ natToBE 4 (i + 2 ^ 31))).length = 64)
    (hIL : beToNat ((hmac k.ChainCode
      (((0x00 : Byte) :: k.Key) ++ natToBE 4 (i + 2 ^ 31))).take 32) < curveN) :
    (((0x00 : Byte) :: k.Key) ++ natToBE 4 (i + 2 ^ 31)).length = 37 ∧
    beToNat ((((0x00 : Byte) :: k.Key) ++ natToBE 4 (i + 2 ^ 31)).drop 33) = i + 2 ^ 31 ∧
    ExtKey.DeriveHardened hmac k i = .ok
      { Key := natToBE 32 ((beToNat k.Key + beToNat ((hmac k.ChainCode
          (((0x00 : Byte) :: k.Key) ++ natToBE 4 (i + 2 ^ 31))).take 32)) % curveN)
        ChainCode := (hmac k.ChainCode
          (((0x00 : Byte) :: k.Key) ++ natToBE 4 (i + 2 ^ 31))).drop 32 } := by
  have hdata : hardenedData k i = ((0x00 : Byte) :: k.Key) ++ natToBE 4 (i + 2 ^ 31) := by
    have hmod : (i + 0x80000000) % 2 ^ 32 = i + 2 ^ 31 := by
      rw [Nat.mod_eq_of_lt] <;> omega
    rw [hardenedData, hmod, putUint32_eq]
  refine ⟨by simp [hk, natToBE_length], ?_, ?_⟩
  · have hdrop : (((0x00 : Byte) :: k.Key) ++ natToBE 4 (i + 2 ^ 31)).drop 33
        = natToBE 4 (i + 2 ^ 31) := by
      have h33 : ((0x00 : Byte) :: k.Key).length = 33 := by simp [hk]
      rw [← h33, List.drop_left]
    rw [hdrop, beToNat_natToBE, Nat.mod_eq_of_lt]
    norm_num
    omega
  · have hlen : 32 ≤ (hmac k.ChainCode (hardenedData k i)).length := by
      rw [hdata]; omega
    rw [DeriveHardened_eq hmac k i hlen, hdata, take_of_length hk]
    rw [if_neg (by omega), if_neg (by omega), Nat.mod_eq_of_lt hp, Nat.mod_eq_of_lt hIL]
    rw [copyInto_of_length]
    rw [List.length_drop]; omega

/-- Witness of C3: the scalar one, index 44, an HMAC stand-in with `IL = 1`. -/
theorem DeriveHardened_spec_witness :
    (((0x00 : Byte) :: oneKey) ++ natToBE 4 (44 + 2 ^ 31)).length = 37 ∧
    beToNat ((((0x00 : Byte) :: oneKey) ++ natToBE 4 (44 + 2 ^ 31)).drop 33) = 44 + 2 ^ 31 ∧
    ExtKey.DeriveHardened (fixedHmac oneKey zeroKey) ⟨oneKey, zeroKey⟩ 44 = .ok
      { Key := natToBE 32 ((beToNat oneKey + beToNat ((fixedHmac oneKey zeroKey zeroKey
          (((0x00 : Byte) :: oneKey) ++ natToBE 4 (44 + 2 ^ 31))).take 32)) % curveN)
        ChainCode := (fixedHmac oneKey zeroKey zeroKey
          (((0x00 : Byte) :: oneKey) ++ natToBE 4 (44 + 2 ^ 31))).drop 32 } :=
  DeriveHardened_spec (fixedHmac oneKey zeroKey) ⟨oneKey, zeroKey⟩ 44 (by decide) (by decide)
    (by decide) (by decide) (by decide)

/-- C1: when the master key and the five steps succeed, `deriveTronPrivateKey` returns
the key made from the `Key` of
`masterKey(seed).DeriveHardened(44).DeriveHardened(195).DeriveHardened(0).Derive(0).Derive(index)`:
its scalar `D` is the big-endian value of that `Key`, and `PrivateKeyToBytes` gives that
32-byte `Key` back. -/
theorem deriveTronPrivateKey_path (hmac : List Byte → List Byte → List Byte)
    (mul : Nat → Nat × Nat) (seed : List Byte) (index : Nat)
    (root purpose coin account change addr : ExtKey)
    (h0 : masterKey hmac seed = .ok root)
    (h1 : ExtKey.DeriveHardened hmac root 44 = .ok purpose)
    (h2 : ExtKey.DeriveHardened hmac purpose 195 = .ok coin)
    (h3 : ExtKey.DeriveHardened hmac coin 0 = .ok account)
    (h4 : ExtKey.Derive hmac mul account 0 = .ok change)
    (h5 : ExtKey.Derive hmac mul change index = .ok addr) :
    deriveTronPrivateKey hmac mul (masterKey hmac) seed index =
      .ok (privKeyFromBytesToECDSA mul addr.Key) ∧
    (privKeyFromBytesToECDSA mul addr.Key).D = (beToNat addr.Key : Int) ∧
    addr.Key.length = 32 ∧
    PrivateKeyToBytes (privKeyFromBytesToECDSA mul addr.Key) = addr.Key := by
  obtain ⟨_, _, _, hc⟩ := Derive_ok_inv hmac mul change addr index h5
  have hkey : ∃ s, s < curveN ∧ addr.Key = natToBE 32 s :=
    ⟨_, Nat.mod_lt _ (by decide), by rw [hc]⟩
  obtain ⟨s, hs, hks⟩ := hkey
  have h256 : s < 256 ^ 32 := Nat.lt_trans hs curveN_lt
  have hD := privKeyFromBytesToECDSA_D mul s hs
  refine ⟨?_, ?_, ?_, ?_⟩
  · unfold deriveTronPrivateKey
    simp only [h0, h1, h2, h3, h4, h5, bind, Except.bind, pure, Except.pure]
  · rw [hks, hD, beToNat_natToBE, Nat.mod_eq_of_lt h256]
  · rw [hks, natToBE_length]
  · rw [hks]
    have hpk : privKeyFromBytesToECDSA mul (natToBE 32 s) =
        { D := (s : Int), X := (privKeyFromBytesToECDSA mul (natToBE 32 s)).X,
          Y := (privKeyFromBytesToECDSA mul (natToBE 32 s)).Y } := by
      rw [← hD]
    rw [hpk]
    exact PrivateKeyToBytes_of_lt s _ _ h256

/-- Witness of C1: an HMAC stand-in with `IL = 1` at every step, so that the keys along
the path are the scalars one to six. -/
theorem deriveTronPrivateKey_path_witness :
    deriveTronPrivateKey (fixedHmac oneKey zeroKey) stubBaseMult
        (masterKey (fixedHmac oneKey zeroKey)) [] 7 =
      .ok (privKeyFromBytesToECDSA stubBaseMult (natToBE 32 6)) ∧
    (privKeyFromBytesToECDSA stubBaseMult (natToBE 32 6)).D
      = (beToNat (natToBE 32 6) : Int) ∧
    (natToBE 32 6).length = 32 ∧
    PrivateKeyToBytes (privKeyFromBytesToECDSA stubBaseMult (natToBE 32 6))
      = natToBE 32 6 :=
  deriveTronPrivateKey_path (fixedHmac oneKey zeroKey) stubBaseMult [] 7
    ⟨oneKey, zeroKey⟩ ⟨natToBE 32 2, zeroKey⟩ ⟨natToBE 32 3, zeroKey⟩
    ⟨natToBE 32 4, zeroKey⟩ ⟨natToBE 32 5, zeroKey⟩ ⟨natToBE 32 6, zeroKey⟩
    (by decide) (by decide) (by decide) (by decide) (by decide) (by decide)

/-- C2: whatever the HMAC collaborator, the master key and the index, if the steps before
step `j` of the path (purpose, coin, account, change, address index) succeed and the `IL`
of step `j` is at least the group order, then step `j` returns an error and
`deriveTronPrivateKey` returns that very error, and no key. -/
theorem deriveTronPrivateKey_invalid_IL (hmac : List Byte → List Byte → List Byte)
    (mul : Nat → Nat × Nat) (mk : List Byte → Result ExtKey) (seed : List Byte)
    (index : Nat) (root parent : ExtKey) (j : Nat) (hj : j < (tronPath index).length)
    (hroot : mk seed = .ok root)
    (hpre : runPath hmac mul ((tronPath index).take j) root = .ok parent)
    (hIL : curveN ≤
      beToNat ((stepHmac hmac mul parent ((tronPath index).get ⟨j, hj⟩)).take 32)) :
    (tronPath index).length = 5 ∧
    ∃ msg, applyStep hmac mul parent ((tronPath index).get ⟨j, hj⟩) = .error (.error msg) ∧
      deriveTronPrivateKey hmac mul mk seed index = .error (.error msg) := by
  refine ⟨rfl, ?_⟩
  obtain ⟨msg, hmsg⟩ := applyStep_invalid_IL hmac mul parent _ hIL
  refine ⟨msg, hmsg, ?_⟩
  rw [deriveTronPrivateKey_eq_runPath, hroot]
  dsimp only
  rw [runPath_error_at hmac mul (tronPath index) j hj root parent _ hpre hmsg]

/-- Witness of C2: the stand-in of the package's test makes `IL` invalid at the change
step (`j = 3`), after three hardened steps that succeed. -/
theorem deriveTronPrivateKey_invalid_IL_witness :
    (tronPath 0).length = 5 ∧
    ∃ msg, applyStep (invalidFor 0) stubBaseMult ⟨natToBE 32 4, List.replicate 32 7⟩
        ((tronPath 0).get ⟨3, by decide⟩) = .error (.error msg) ∧
      deriveTronPrivateKey (invalidFor 0) stubBaseMult (masterKey (invalidFor 0))
        (natToBE 16 0x000102030405060708090a0b0c0d0e0f) 0 = .error (.error msg) :=
  deriveTronPrivateKey_invalid_IL (invalidFor 0) stubBaseMult (masterKey (invalidFor 0))
    (natToBE 16 0x000102030405060708090a0b0c0d0e0f) 0 ⟨oneKey, List.replicate 32 7⟩
    ⟨natToBE 32 4, List.replicate 32 7⟩ 3 (by decide) (by decide) (by decide) (by decide)

/-- C4: for an extended key whose 32-byte `Key` has big-endian value `p < n` and a uint32
index `i`, with `P` the uncompressed public key of the scalar `p` and `I` the 64-byte
HMAC-SHA512 of `P || be32(i)` under the chain code: `P` has 65 bytes, the data has 69
bytes and its last four decode to `i` itself; if `IL = I[0:32] < n`, `Derive` succeeds
with `Key` the 32-byte big-endian encoding of `(p + IL) mod n` and `ChainCode = I[32:64]`. -/
theorem Derive_spec (hmac : List Byte → List Byte → List Byte) (mul : Nat → Nat × Nat)
    (k : ExtKey) (i : Nat) (hk : k.Key.length = 32) (hp : beToNat k.Key < curveN)
    (hi : i < 2 ^ 32)
    (hI : (hmac k.ChainCode
      (serializeUncompressed (mul (beToNat k.Key)) ++ natToBE 4 i)).length = 64)
    (hIL : beToNat ((hmac k.ChainCode
      (serializeUncompressed (mul (beToNat k.Key)) ++ natToBE 4 i)).take 32) < curveN) :
    (serializeUncompressed (mul (beToNat k.Key))).length = 65 ∧
    (serializeUncompressed (mul (beToNat k.Key)) ++ natToBE 4 i).length = 69 ∧
    beToNat ((serializeUncompressed (mul (beToNat k.Key)) ++ natToBE 4 i).drop 65) = i ∧
    ExtKey.Derive hmac mul k i = .ok
      { Key := natToBE 32 ((beToNat k.Key + beToNat ((hmac k.ChainCode
          (serializeUncompressed (mul (beToNat k.Key)) ++ natToBE 4 i)).take 32)) % curveN)
        ChainCode := (hmac k.ChainCode
          (serializeUncompressed (mul (beToNat k.Key)) ++ natToBE 4 i)).drop 32 } := by
  have hP : (serializeUncompressed (mul (beToNat k.Key))).length = 65 := by
    simp [serializeUncompressed, natToBE_length]
  have hdata : normalData mul k i
      = serializeUncompressed (mul (beToNat k.Key)) ++ natToBE 4 i := by
    rw [normalData, setByteSlice, take_of_length hk, Nat.mod_eq_of_lt hp, putUint32_eq]
  refine ⟨hP, by rw [List.length_append, hP, natToBE_length], ?_, ?_⟩
  · rw [← hP, List.drop_left, beToNat_natToBE, Nat.mod_eq_of_lt]
    norm_num
    omega
  · have hlen : 32 ≤ (hmac k.ChainCode (normalData mul k i)).length := by
      rw [hdata]; omega
    rw [Derive_eq hmac mul k i hlen, hdata, take_of_length hk]
    rw [if_neg (by omega), if_neg (by omega), Nat.mod_eq_of_lt hp, Nat.mod_eq_of_lt hIL]
    rw [copyInto_of_length]
    rw [List.length_drop]; omega

/-- Witness of C4: the scalar one, the largest uint32 index, an HMAC stand-in with
`IL = 1`. -/
theorem Derive_spec_witness :
    (serializeUncompressed (stubBaseMult (beToNat oneKey))).length = 65 ∧
    (serializeUncompressed (stubBaseMult (beToNat oneKey))
      ++ natToBE 4 4294967295).length = 69 ∧
    beToNat ((serializeUncompressed (stubBaseMult (beToNat oneKey))
      ++ natToBE 4 4294967295).drop 65) = 4294967295 ∧
    ExtKey.Derive (fixedHmac oneKey zeroKey) stubBaseMult ⟨oneKey, zeroKey⟩ 4294967295 = .ok
      { Key := natToBE 32 ((beToNat oneKey + beToNat ((fixedHmac oneKey zeroKey zeroKey
          (serializeUncompressed (stubBaseMult (beToNat oneKey))
            ++ natToBE 4 4294967295)).take 32)) % curveN)
        ChainCode := (fixedHmac oneKey zeroKey zeroKey
          (serializeUncompressed (stubBaseMult (beToNat oneKey))
            ++ natToBE 4 4294967295)).drop 32 } :=
  Derive_spec (fixedHmac oneKey zeroKey) stubBaseMult ⟨oneKey, zeroKey⟩ 4294967295
    (by decide) (by decide) (by decide) (by decide) (by decide)

/-- C5: with `I` the 64-byte HMAC-SHA512 of the seed under the key `"Bitcoin seed"` (12
ASCII bytes), `masterKey` succeeds and returns `Key = I[0:32]`, `ChainCode = I[32:64]`. -/
theorem masterKey_spec (hmac : List Byte → List Byte → List Byte) (seed : List Byte)
    (h : (hmac bitcoinSeed seed).length = 64) :
    bitcoinSeed = "Bitcoin seed".data.map (fun c => byteOf c.toNat) ∧
    bitcoinSeed.length = 12 ∧
    masterKey hmac seed = .ok
      { Key := (hmac bitcoinSeed seed).take 32
        ChainCode := ((hmac bitcoinSeed seed).take 64).drop 32 } := by
  refine ⟨by decide, rfl, ?_⟩
  rw [masterKey_eq hmac seed h, take_of_length h]

/-- Witness of C5: a stand-in that returns 64 bytes. -/
theorem masterKey_spec_witness :
    bitcoinSeed = "Bitcoin seed".data.map (fun c => byteOf c.toNat) ∧
    bitcoinSeed.length = 12 ∧
    masterKey (fixedHmac oneKey zeroKey) [1, 2, 3] = .ok
      { Key := (fixedHmac oneKey zeroKey bitcoinSeed [1, 2, 3]).take 32
        ChainCode := ((fixedHmac oneKey zeroKey bitcoinSeed [1, 2, 3]).take 64).drop 32 } :=
  masterKey_spec (fixedHmac oneKey zeroKey) [1, 2, 3] (by decide)

/-- C9: for an extended key with a 32-byte `Key` and an HMAC that returns 64 bytes:
when the big-endian value of the parent `Key` is at least the group order `n`,
`DeriveHardened` and `Derive` return an error; when the step's `IL` is at least `n`,
they return an error as well (`invalid IL` if the parent is in range). No child is
returned, so no value reduced modulo `n` is used. -/
theorem derive_rejects_out_of_range (hmac : List Byte → List Byte → List Byte)
    (mul : Nat → Nat × Nat) (k : ExtKey) (i : Nat) (hk : k.Key.length = 32)
    (hlen : ∀ key data, (hmac key data).length = 64) :
    (curveN ≤ beToNat k.Key →
      ExtKey.DeriveHardened hmac k i = .error (.error "invalid parent key") ∧
      ExtKey.Derive hmac mul k i = .error (.error "invalid private key")) ∧
    (curveN ≤ beToNat ((hmac k.ChainCode (hardenedData k i)).take 32) →
      ExtKey.DeriveHardened hmac k i = .error (.error
        (if curveN ≤ beToNat k.Key then "invalid parent key" else "invalid IL"))) ∧
    (curveN ≤ beToNat ((hmac k.ChainCode (normalData mul k i)).take 32) →
      ExtKey.Derive hmac mul k i = .error (.error
        (if curveN ≤ beToNat k.Key then "invalid private key" else "invalid IL"))) := by
  have h1 : 32 ≤ (hmac k.ChainCode (hardenedData k i)).length := by rw [hlen]; omega
  have h2 : 32 ≤ (hmac k.ChainCode (normalData mul k i)).length := by rw [hlen]; omega
  rw [DeriveHardened_eq hmac k i h1, Derive_eq hmac mul k i h2, take_of_length hk]
  refine ⟨fun hp => ?_, fun hil => ?_, fun hil => ?_⟩
  · rw [if_pos hp, if_pos hp]
    exact ⟨rfl, rfl⟩
  · by_cases hp : curveN ≤ beToNat k.Key
    · rw [if_pos hp, if_pos hp]
    · rw [if_neg hp, if_pos hil, if_neg hp]
  · by_cases hp : curveN ≤ beToNat k.Key
    · rw [if_pos hp, if_pos hp]
    · rw [if_neg hp, if_pos hil, if_neg hp]

/-- Witness of C9: the parent `0xff…ff` is rejected by both calls, and so is the `IL`
`0xff…ff` under the parent one. -/
theorem derive_rejects_out_of_range_witness :
    (ExtKey.DeriveHardened (fixedHmac oneKey zeroKey) ⟨List.replicate 32 0xff, zeroKey⟩ 0
        = .error (.error "invalid parent key") ∧
      ExtKey.Derive (fixedHmac oneKey zeroKey) stubBaseMult ⟨List.replicate 32 0xff, zeroKey⟩ 0
        = .error (.error "invalid private key")) ∧
    ExtKey.DeriveHardened (fixedHmac (List.replicate 32 0xff) zeroKey) ⟨oneKey, zeroKey⟩ 0
      = .error (.error "invalid IL") ∧
    ExtKey.Derive (fixedHmac (List.replicate 32 0xff) zeroKey) stubBaseMult ⟨oneKey, zeroKey⟩ 0
      = .error (.error "invalid IL") :=
  ⟨(derive_rejects_out_of_range (fixedHmac oneKey zeroKey) stubBaseMult
      ⟨List.replicate 32 0xff, zeroKey⟩ 0 (by decide) (fun _ _ => rfl)).1 (by decide),
    (derive_rejects_out_of_range (fixedHmac (List.replicate 32 0xff) zeroKey) stubBaseMult
      ⟨oneKey, zeroKey⟩ 0 (by decide) (fun _ _ => rfl)).2.1 (by decide),
    (derive_rejects_out_of_range (fixedHmac (List.replicate 32 0xff) zeroKey) stubBaseMult
      ⟨oneKey, zeroKey⟩ 0 (by decide) (fun _ _ => rfl)).2.2 (by decide)⟩

/-- C10: the code at the failing input. A parent `Key` of 32 zero bytes is not rejected:
`DeriveHardened` and `Derive` return a child and no error; the same holds for an `IL` of 32
zero bytes. The specification, and the comment of the package's test on the zero key,
ask for an error. -/
theorem zero_scalar_accepted :
    ExtKey.DeriveHardened (fixedHmac oneKey zeroKey) ⟨zeroKey, zeroKey⟩ 0
      = .ok ⟨oneKey, zeroKey⟩ ∧
    ExtKey.Derive (fixedHmac oneKey zeroKey) stubBaseMult ⟨zeroKey, zeroKey⟩ 0
      = .ok ⟨oneKey, zeroKey⟩ ∧
    ExtKey.DeriveHardened (fixedHmac zeroKey zeroKey) ⟨oneKey, zeroKey⟩ 0
      = .ok ⟨oneKey, zeroKey⟩ ∧
    ExtKey.Derive (fixedHmac zeroKey zeroKey) stubBaseMult ⟨oneKey, zeroKey⟩ 0
      = .ok ⟨oneKey, zeroKey⟩ := by
  decide

/-- C8: for a key whose public coordinates satisfy `0 ≤ X, Y < 2^256`, `pubUncompressed`
returns 65 bytes `b` with `b[0] = 0x04`, `b[1:33]` the big-endian bytes of `X` left-padded
with zero bytes to 32 bytes (of value `X`), and `b[33:65]` the same for `Y`; `X = 5`
gives 31 zero bytes and `0x05`, and `X = 0` gives 32 zero bytes. -/
theorem pubUncompressed_spec (priv : PrivateKey) (hX0 : 0 ≤ priv.X) (hX : priv.X < 2 ^ 256)
    (hY0 : 0 ≤ priv.Y) (hY : priv.Y < 2 ^ 256) :
    (pubUncompressed priv).length = 65 ∧
    (pubUncompressed priv).head? = some 0x04 ∧
    ((pubUncompressed priv).take 33).drop 1 =
      List.replicate (32 - (bigIntBytes priv.X).length) 0 ++ bigIntBytes priv.X ∧
    ((pubUncompressed priv).take 65).drop 33 =
      List.replicate (32 - (bigIntBytes priv.Y).length) 0 ++ bigIntBytes priv.Y ∧
    (beToNat (((pubUncompressed priv).take 33).drop 1) : Int) = priv.X ∧
    (beToNat (((pubUncompressed priv).take 65).drop 33) : Int) = priv.Y ∧
    (priv.X = 5 → ((pubUncompressed priv).take 33).drop 1 = List.replicate 31 0 ++ [5]) ∧
    (priv.X = 0 → ((pubUncompressed priv).take 33).drop 1 = List.replicate 32 0) := by
  have hlx := natToBE_length 32 priv.X.toNat
  have hly := natToBE_length 32 priv.Y.toNat
  have hpow : (256 : Nat) ^ 32 = 2 ^ 256 := by norm_num
  have hx : ((pubUncompressed priv).take 33).drop 1 = natToBE 32 priv.X.toNat := by
    rw [pubUncompressed_eq priv hX0 hX hY0 hY]
    have : ((0x04 : Byte) :: natToBE 32 priv.X.toNat).length = 33 := by simp [hlx]
    rw [← List.cons_append, ← this, List.take_left]
    rfl
  have hy : ((pubUncompressed priv).take 65).drop 33 = natToBE 32 priv.Y.toNat := by
    rw [pubUncompressed_eq priv hX0 hX hY0 hY]
    have h65 : ((0x04 : Byte) :: (natToBE 32 priv.X.toNat ++ natToBE 32 priv.Y.toNat)).length
        = 65 := by simp [hlx, hly]
    have h33 : ((0x04 : Byte) :: natToBE 32 priv.X.toNat).length = 33 := by simp [hlx]
    rw [← h65, List.take_length, ← List.cons_append, ← h33, List.drop_left]
  refine ⟨?_, ?_, ?_, ?_, ?_, ?_, ?_, ?_⟩
  · rw [pubUncompressed_eq priv hX0 hX hY0 hY]
    simp [hlx, hly]
  · rw [pubUncompressed_eq priv hX0 hX hY0 hY]
    rfl
  · rw [hx, (padLoop_bigIntBytes priv.X hX0 hX).2]
  · rw [hy, (padLoop_bigIntBytes priv.Y hY0 hY).2]
  · rw [hx, beToNat_natToBE, Nat.mod_eq_of_lt (by omega)]
    omega
  · rw [hy, beToNat_natToBE, Nat.mod_eq_of_lt (by omega)]
    omega
  · intro h5
    rw [hx, h5]
    decide
  · intro h0
    rw [hx, h0]
    decide

/-- Witness of C8: the key of `TestPubUncompressed_ManualSmallCoordinates`, `X = 5` and
`Y = 7`. -/
theorem pubUncompressed_spec_witness :
    (pubUncompressed ⟨1, 5, 7⟩).length = 65 ∧
    ((pubUncompressed ⟨1, 5, 7⟩).take 33).drop 1 = List.replicate 31 0 ++ [5] :=
  ⟨(pubUncompressed_spec ⟨1, 5, 7⟩ (by decide) (by norm_num) (by decide) (by norm_num)).1,
    (pubUncompressed_spec ⟨1, 5, 7⟩ (by decide) (by norm_num) (by decide)
      (by norm_num)).2.2.2.2.2.2.1 rfl⟩

/-- C6: for a key whose public coordinates satisfy `0 ≤ X, Y < 2^256`,
`TronAddressFromPrivate` is the Base58 encoding of `payload ++ checksum`, where `payload`
is `0x41` followed by the last 20 bytes of the Keccak-256 of the 64 bytes `X32 || Y32`,
and `checksum` is the first four bytes of the SHA-256 of the SHA-256 of `payload`; the
payload has 21 bytes and the encoded byte string has 25. -/
theorem TronAddressFromPrivate_spec (keccak256 sha256Sum256 : List Byte → Digest32)
    (priv : PrivateKey) (hX0 : 0 ≤ priv.X) (hX : priv.X < 2 ^ 256)
    (hY0 : 0 ≤ priv.Y) (hY : priv.Y < 2 ^ 256) :
    (natToBE 32 priv.X.toNat ++ natToBE 32 priv.Y.toNat).length = 64 ∧
    pubUncompressed priv = 0x04 :: (natToBE 32 priv.X.toNat ++ natToBE 32 priv.Y.toNat) ∧
    ((0x41 : Byte) :: (keccak256 (natToBE 32 priv.X.toNat ++ natToBE 32 priv.Y.toNat)).val.drop
      ((keccak256 (natToBE 32 priv.X.toNat ++ natToBE 32 priv.Y.toNat)).val.length - 20)).length
      = 21 ∧
    (((0x41 : Byte) :: (keccak256 (natToBE 32 priv.X.toNat ++ natToBE 32 priv.Y.toNat)).val.drop
        ((keccak256 (natToBE 32 priv.X.toNat ++ natToBE 32 priv.Y.toNat)).val.length - 20)) ++
      (sha256Sum256 (sha256Sum256 ((0x41 : Byte) ::
        (keccak256 (natToBE 32 priv.X.toNat ++ natToBE 32 priv.Y.toNat)).val.drop
          ((keccak256 (natToBE 32 priv.X.toNat ++ natToBE 32 priv.Y.toNat)).val.length - 20))
        ).val).val.take 4).length = 25 ∧
    TronAddressFromPrivate keccak256 sha256Sum256 priv = base58Encode
      (((0x41 : Byte) :: (keccak256 (natToBE 32 priv.X.toNat ++ natToBE 32 priv.Y.toNat)).val.drop
        ((keccak256 (natToBE 32 priv.X.toNat ++ natToBE 32 priv.Y.toNat)).val.length - 20)) ++
      (sha256Sum256 (sha256Sum256 ((0x41 : Byte) ::
        (keccak256 (natToBE 32 priv.X.toNat ++ natToBE 32 priv.Y.toNat)).val.drop
          ((keccak256 (natToBE 32 priv.X.toNat ++ natToBE 32 priv.Y.toNat)).val.length - 20))
        ).val).val.take 4) := by
  have hpub := pubUncompressed_eq priv hX0 hX hY0 hY
  have hk : (keccak256 (natToBE 32 priv.X.toNat ++ natToBE 32 priv.Y.toNat)).val.length - 20
      = 12 := by
    rw [(keccak256 _).property]
  have hfull : TronAddressFromPrivate keccak256 sha256Sum256 priv = base58Encode
      (((0x41 : Byte) :: (keccak256 (natToBE 32 priv.X.toNat ++ natToBE 32 priv.Y.toNat)).val.drop
        12) ++
      (sha256Sum256 (sha256Sum256 ((0x41 : Byte) ::
        (keccak256 (natToBE 32 priv.X.toNat ++ natToBE 32 priv.Y.toNat)).val.drop 12)
        ).val).val.take 4) := by
    simp only [TronAddressFromPrivate, tronAddressBytes, hpub, List.drop_succ_cons,
      List.drop_zero]
  rw [hk]
  refine ⟨by simp [natToBE_length], hpub, ?_, ?_, hfull⟩
  · simp [(keccak256 _).property]
  · simp [(keccak256 _).property, (sha256Sum256 _).property]

/-- Witness of C6: the coordinates 5 and 7 under stand-in hashes. -/
theorem TronAddressFromPrivate_spec_witness :
    TronAddressFromPrivate stubDigest stubDigest ⟨1, 5, 7⟩ = base58Encode
      (((0x41 : Byte) :: (stubDigest (natToBE 32 5 ++ natToBE 32 7)).val.drop
        ((stubDigest (natToBE 32 5 ++ natToBE 32 7)).val.length - 20)) ++
      (stubDigest (stubDigest ((0x41 : Byte) ::
        (stubDigest (natToBE 32 5 ++ natToBE 32 7)).val.drop
          ((stubDigest (natToBE 32 5 ++ natToBE 32 7)).val.length - 20))
        ).val).val.take 4) :=
  (TronAddressFromPrivate_spec stubDigest stubDigest ⟨1, 5, 7⟩ (by decide) (by norm_num)
    (by decide) (by norm_num)).2.2.2.2

/-- C7: for every key, Base58-decoding the string returned by `TronAddressFromPrivate`
yields exactly 25 bytes `d` with `d[0] = 0x41` and `d[21:25]` equal to the first four
bytes of the SHA-256 of the SHA-256 of `d[0:21]`. -/
theorem TronAddressFromPrivate_decode (keccak256 sha256Sum256 : List Byte → Digest32)
    (priv : PrivateKey) :
    (base58Decode (TronAddressFromPrivate keccak256 sha256Sum256 priv)).length = 25 ∧
    (base58Decode (TronAddressFromPrivate keccak256 sha256Sum256 priv)).head? = some 0x41 ∧
    ((base58Decode (TronAddressFromPrivate keccak256 sha256Sum256 priv)).take 25).drop 21 =
      (sha256Sum256 (sha256Sum256
        ((base58Decode (TronAddressFromPrivate keccak256 sha256Sum256 priv)).take 21)).val
        ).val.take 4 := by
  rw [TronAddressFromPrivate, base58Decode_encode]
  have hlen := tronAddressBytes_length keccak256 sha256Sum256 priv
  refine ⟨hlen, rfl, ?_⟩
  rw [← hlen, List.take_length]
  have hraw : ((0x41 : Byte) ::
      (keccak256 ((pubUncompressed priv).drop 1)).val.drop 12).length = 21 := by
    simp [digest_length]
  simp only [tronAddressBytes]
  rw [← hraw, List.drop_left, List.take_left]

/-! ## Keys of another length, and the width of derived keys -/

theorem copyInto_length (n : Nat) (src : List Byte) : (copyInto n src).length = n := by
  simp only [copyInto, List.length_append, List.length_take, List.length_replicate]
  omega

/-- A key of fewer than 32 bytes is read as a number below the group order. -/
theorem short_key_lt (key : List Byte) (h : key.length < 32) :
    key.take 32 = key ∧ beToNat key < curveN := by
  have hlt := beToNat_lt key
  have hpow : 256 ^ key.length ≤ 256 ^ 31 := Nat.pow_le_pow_right (by decide) (by omega)
  have h31 := pow31_lt_curveN
  exact ⟨List.take_of_length_le (by omega), by omega⟩

/-- Under an HMAC whose left half is always in range, a step on an in-range parent
succeeds, and its child is in range. -/
theorem applyStep_ok_of_valid (hmac : List Byte → List Byte → List Byte)
    (mul : Nat → Nat × Nat) (hlen : ∀ key data, (hmac key data).length = 64)
    (hvalid : ∀ key data, beToNat ((hmac key data).take 32) < curveN)
    (k : ExtKey) (hp : beToNat (k.Key.take 32) < curveN) (s : PathStep) :
    ∃ c, applyStep hmac mul k s = .ok c ∧ beToNat (c.Key.take 32) < curveN := by
  have hge : ∀ key data, 32 ≤ (hmac key data).length := fun key data => by
    rw [hlen]; omega
  have hchild : ∀ (v : Nat) (cc : List Byte),
      beToNat (({ Key := natToBE 32 (v % curveN), ChainCode := cc } : ExtKey).Key.take 32)
        < curveN := by
    intro v cc
    have hv : v % curveN < curveN := Nat.mod_lt _ (by decide)
    show beToNat ((natToBE 32 (v % curveN)).take 32) < curveN
    rw [take_of_length (natToBE_length 32 (v % curveN)), beToNat_natToBE,
      Nat.mod_eq_of_lt (Nat.lt_trans hv curveN_lt)]
    exact hv
  have hnp : ¬ curveN ≤ beToNat (k.Key.take 32) := Nat.not_le.mpr hp
  cases s with
  | hardened i =>
    have h := DeriveHardened_eq hmac k i (hge _ _)
    rw [if_neg hnp, if_neg (Nat.not_le.mpr (hvalid _ _))] at h
    exact ⟨_, h, hchild _ _⟩
  | normal i =>
    have h := Derive_eq hmac mul k i (hge _ _)
    rw [if_neg hnp, if_neg (Nat.not_le.mpr (hvalid _ _))] at h
    exact ⟨_, h, hchild _ _⟩

theorem runPath_ok_of_valid (hmac : List Byte → List Byte → List Byte)
    (mul : Nat → Nat × Nat) (hlen : ∀ key data, (hmac key data).length = 64)
    (hvalid : ∀ key data, beToNat ((hmac key data).take 32) < curveN)
    (steps : List PathStep) : ∀ k : ExtKey, beToNat (k.Key.take 32) < curveN →
    ∃ c, runPath hmac mul steps k = .ok c := by
  induction steps with
  | nil => intro k _; exact ⟨k, rfl⟩
  | cons s rest ih =>
    intro k hp
    obtain ⟨c, hc, hcv⟩ := applyStep_ok_of_valid hmac mul hlen hvalid k hp s
    obtain ⟨d, hd⟩ := ih c hcv
    exact ⟨d, by simp only [runPath, hc, hd]⟩

/-- C11: the code at the failing input. The 2-byte key `0x01 0x02` with a 32-byte zero
chain code is not rejected: `DeriveHardened` and `Derive` return a child and no error, and
`deriveTronPrivateKey` returns a key when the master key is that extended key. The
specification, and the comments of the package's tests on the short key, ask for an
error. -/
theorem short_key_accepted :
    ExtKey.DeriveHardened (fixedHmac oneKey zeroKey) ⟨[0x01, 0x02], zeroKey⟩ 0
      = .ok ⟨natToBE 32 259, zeroKey⟩ ∧
    ExtKey.Derive (fixedHmac oneKey zeroKey) stubBaseMult ⟨[0x01, 0x02], zeroKey⟩ 0
      = .ok ⟨natToBE 32 259, zeroKey⟩ ∧
    deriveTronPrivateKey (fixedHmac oneKey zeroKey) stubBaseMult
        (fun _ => .ok ⟨[0x01, 0x02], zeroKey⟩) [] 0
      = .ok ⟨263, 265, 266⟩ := by
  refine ⟨by decide, by decide, ?_⟩
  set_option maxRecDepth 4000 in decide

/-- C12: with an HMAC that returns 64 bytes, the extended key that `masterKey` returns for
every seed, and the child of every successful `DeriveHardened` or `Derive` for every
parent and index, has a `Key` of exactly 32 bytes and a `ChainCode` of exactly 32 bytes. -/
theorem extKey_fixed_width (hmac : List Byte → List Byte → List Byte)
    (mul : Nat → Nat × Nat) (hlen : ∀ key data, (hmac key data).length = 64) :
    (∀ seed, ∃ root, masterKey hmac seed = .ok root ∧
      root.Key.length = 32 ∧ root.ChainCode.length = 32) ∧
    (∀ k i c, ExtKey.DeriveHardened hmac k i = .ok c →
      c.Key.length = 32 ∧ c.ChainCode.length = 32) ∧
    (∀ k i c, ExtKey.Derive hmac mul k i = .ok c →
      c.Key.length = 32 ∧ c.ChainCode.length = 32) := by
  refine ⟨fun seed => ?_, fun k i c h => ?_, fun k i c h => ?_⟩
  · refine ⟨_, masterKey_eq hmac seed (hlen _ _), ?_, ?_⟩
    · show ((hmac bitcoinSeed seed).take 32).length = 32
      rw [List.length_take, hlen]
      rfl
    · show ((hmac bitcoinSeed seed).drop 32).length = 32
      rw [List.length_drop, hlen]
  · obtain ⟨_, _, _, hc⟩ := DeriveHardened_ok_inv hmac k c i h
    rw [hc]
    exact ⟨natToBE_length 32 _, copyInto_length 32 _⟩
  · obtain ⟨_, _, _, hc⟩ := Derive_ok_inv hmac mul k c i h
    rw [hc]
    exact ⟨natToBE_length 32 _, copyInto_length 32 _⟩

/-- Witness of C12: the master key and a hardened child under a stand-in that returns 64
bytes. -/
theorem extKey_fixed_width_witness :
    (∃ root, masterKey (fixedHmac oneKey zeroKey) [1, 2, 3] = .ok root ∧
      root.Key.length = 32 ∧ root.ChainCode.length = 32) ∧
    (natToBE 32 2).length = 32 ∧ zeroKey.length = 32 :=
  ⟨(extKey_fixed_width (fixedHmac oneKey zeroKey) stubBaseMult (fun _ _ => rfl)).1 [1, 2, 3],
    (extKey_fixed_width (fixedHmac oneKey zeroKey) stubBaseMult (fun _ _ => rfl)).2.1
      ⟨oneKey, zeroKey⟩ 0 ⟨natToBE 32 2, zeroKey⟩ (by decide)⟩

/-! ## The exported key bytes -/

theorem PrivateKeyToBytes_natAbs (priv : PrivateKey) (h : priv.D.natAbs < 256 ^ 32) :
    PrivateKeyToBytes priv = natToBE 32 priv.D.natAbs ∧
    PrivateKeyToBytes priv =
      List.replicate (32 - (bigIntBytes priv.D).length) 0 ++ bigIntBytes priv.D := by
  obtain ⟨hlen, hpad⟩ := bigBytes_pad 32 priv.D.natAbs h
  have hbytes : PrivateKeyToBytes priv =
      List.replicate (32 - (bigIntBytes priv.D).length) 0 ++ bigIntBytes priv.D := by
    simp only [PrivateKeyToBytes, bigIntBytes]
    split_ifs with hlt
    · rfl
    · have h0 : 32 - (bigBytes priv.D.natAbs).length = 0 := by omega
      rw [h0]
      rfl
  exact ⟨by rw [hbytes]; exact hpad, hbytes⟩

/-- The scalar of the key that `PrivKeyFromBytes(b).ToECDSA()` returns is below the group
order. -/
theorem privKeyFromBytesToECDSA_D_lt (mul : Nat → Nat × Nat) (b : List Byte) :
    ∃ s, s < curveN ∧ (privKeyFromBytesToECDSA mul b).D = (s : Int) := by
  have hs : beToNat (b.take 32) % curveN < curveN := Nat.mod_lt _ (by decide)
  refine ⟨beToNat (b.take 32) % curveN, hs, ?_⟩
  simp only [privKeyFromBytesToECDSA, setByteSlice, scalarBytes]
  rw [beToNat_natToBE, Nat.mod_eq_of_lt (Nat.lt_trans hs curveN_lt)]

/-- What a successful `deriveTronPrivateKey` returns. -/
theorem deriveTronPrivateKey_ok_inv (hmac : List Byte → List Byte → List Byte)
    (mul : Nat → Nat × Nat) (mk : List Byte → Result ExtKey) (seed : List Byte)
    (index : Nat) (priv : PrivateKey)
    (h : deriveTronPrivateKey hmac mul mk seed index = .ok priv) :
    ∃ root addr, mk seed = .ok root ∧ runPath hmac mul (tronPath index) root = .ok addr ∧
      priv = privKeyFromBytesToECDSA mul addr.Key := by
  rw [deriveTronPrivateKey_eq_runPath] at h
  cases hroot : mk seed with
  | error e => rw [hroot] at h; exact absurd h (by simp)
  | ok root =>
    rw [hroot] at h
    dsimp only at h
    cases hpath : runPath hmac mul (tronPath index) root with
    | error e => rw [hpath] at h; exact absurd h (by simp)
    | ok addr =>
      rw [hpath] at h
      exact ⟨root, addr, rfl, hpath, (Except.ok.inj h).symm⟩

/-- C13: for a private key whose scalar satisfies `0 ≤ D < 2^256`, `PrivateKeyToBytes`
returns exactly 32 bytes whose big-endian value is `D`: the natural big-endian bytes of
`D` left-padded with zero bytes, 32 zero bytes for `D = 0`. The output has 32 bytes for
every key that a successful derivation returns. -/
theorem PrivateKeyToBytes_spec (priv : PrivateKey) (h0 : 0 ≤ priv.D)
    (h : priv.D < 2 ^ 256) :
    (PrivateKeyToBytes priv).length = 32 ∧
    (beToNat (PrivateKeyToBytes priv) : Int) = priv.D ∧
    PrivateKeyToBytes priv =
      List.replicate (32 - (bigIntBytes priv.D).length) 0 ++ bigIntBytes priv.D ∧
    (priv.D = 0 → PrivateKeyToBytes priv = List.replicate 32 0) ∧
    (∀ (hmac : List Byte → List Byte → List Byte) (mul : Nat → Nat × Nat)
      (mk : List Byte → Result ExtKey) (seed : List Byte) (index : Nat) (derived : PrivateKey),
      deriveTronPrivateKey hmac mul mk seed index = .ok derived →
      (PrivateKeyToBytes derived).length = 32) := by
  have hpow : (256 : Nat) ^ 32 = 2 ^ 256 := by norm_num
  have hn : priv.D.natAbs < 256 ^ 32 := by omega
  obtain ⟨hbe, hpad⟩ := PrivateKeyToBytes_natAbs priv hn
  refine ⟨by rw [hbe, natToBE_length], ?_, hpad, ?_, ?_⟩
  · rw [hbe, beToNat_natToBE, Nat.mod_eq_of_lt hn]
    omega
  · intro hz
    rw [hbe, hz]
    decide
  · intro hmac mul mk seed index derived hd
    obtain ⟨root, addr, _, _, hpriv⟩ := deriveTronPrivateKey_ok_inv _ _ _ _ _ _ hd
    obtain ⟨s, hs, hD⟩ := privKeyFromBytesToECDSA_D_lt mul addr.Key
    have hlt := curveN_lt
    have hdn : derived.D.natAbs < 256 ^ 32 := by
      rw [hpriv, hD]
      simp only [Int.natAbs_ofNat]
      omega
    rw [(PrivateKeyToBytes_natAbs derived hdn).1, natToBE_length]

/-- Witness of C13: the scalar five. -/
theorem PrivateKeyToBytes_spec_witness :
    (PrivateKeyToBytes ⟨5, 0, 0⟩).length = 32 ∧
    (beToNat (PrivateKeyToBytes ⟨5, 0, 0⟩) : Int) = 5 :=
  ⟨(PrivateKeyToBytes_spec ⟨5, 0, 0⟩ (by decide) (by norm_num)).1,
    (PrivateKeyToBytes_spec ⟨5, 0, 0⟩ (by decide) (by norm_num)).2.1⟩

theorem hexEncode_data (b : List Byte) :
    (hexEncode b).data = b.flatMap fun x => [hexDigit (x.val / 16), hexDigit (x.val % 16)] :=
  rfl

theorem hexEncode_length (b : List Byte) : (hexEncode b).length = 2 * b.length := by
  show (b.flatMap fun x => [hexDigit (x.val / 16), hexDigit (x.val % 16)]).length
    = 2 * b.length
  induction b with
  | nil => rfl
  | cons x xs ih =>
    rw [List.flatMap_cons, List.length_append, ih, List.length_cons]
    simp only [List.length_cons, List.length_nil]
    omega

theorem hexDigit_mem : ∀ n, n < 16 → hexDigit n ∈ "0123456789abcdef".data := by decide

theorem hexEncode_chars (b : List Byte) :
    ∀ c ∈ (hexEncode b).data, c ∈ "0123456789abcdef".data := by
  intro c hc
  rw [hexEncode_data, List.mem_flatMap] at hc
  obtain ⟨x, _, hx⟩ := hc
  have hlt := x.isLt
  simp only [List.mem_cons, List.mem_singleton, List.not_mem_nil, or_false] at hx
  rcases hx with h | h
  · rw [h]; exact hexDigit_mem _ (by omega)
  · rw [h]; exact hexDigit_mem _ (Nat.mod_lt _ (by decide))

/-- C14: the code at the failing input. For the scalar `D = 2^256`, `PrivateKeyToBytes`
returns 33 bytes and `PrivateKeyToHex` returns 66 characters. The specification asks for
64 characters for every private key, and the comment of `PrivateKeyToBytes` for 32
bytes. -/
theorem PrivateKeyToHex_long :
    (PrivateKeyToBytes ⟨2 ^ 256, 0, 0⟩).length = 33 ∧
    (PrivateKeyToHex ⟨2 ^ 256, 0, 0⟩).length = 66 := by
  set_option maxRecDepth 8000 in decide

/-! ## The wallet -/

/-- C15: `RestoreWallet(m)` returns an error, and no wallet, exactly when the validity
check of the mnemonic collaborator rejects `m`; otherwise it returns the wallet whose
`Mnemonic` is `m` and whose `Seed` is the seed of `m` with the empty passphrase. -/
theorem RestoreWallet_spec (isMnemonicValid : String → Bool)
    (newSeed : String → String → List Byte) (m : String) :
    ((∃ e, RestoreWallet isMnemonicValid newSeed m = .error e) ↔
      isMnemonicValid m = false) ∧
    (isMnemonicValid m = false →
      RestoreWallet isMnemonicValid newSeed m = .error (.error "invalid mnemonic")) ∧
    (isMnemonicValid m = true →
      RestoreWallet isMnemonicValid newSeed m =
        .ok { Mnemonic := m, Seed := newSeed m "" }) := by
  cases hv : isMnemonicValid m with
  | false =>
    have hr : RestoreWallet isMnemonicValid newSeed m = .error (.error "invalid mnemonic") := by
      simp [RestoreWallet, hv]
    exact ⟨⟨fun _ => rfl, fun _ => ⟨_, hr⟩⟩, fun _ => hr, fun h => absurd h (by simp)⟩
  | true =>
    have hr : RestoreWallet isMnemonicValid newSeed m =
        .ok { Mnemonic := m, Seed := newSeed m "" } := by
      simp [RestoreWallet, hv]
    refine ⟨⟨fun ⟨e, he⟩ => ?_, fun h => absurd h (by simp)⟩, fun h => absurd h (by simp),
      fun _ => hr⟩
    rw [hr] at he
    exact absurd he (by simp)

/-- C16: called with no length, with `Mnemonic12Words` or with `Mnemonic24Words`,
`NewWallet` equals the reference: 128 bits of entropy for the first two and 256 for the
third, the error of the entropy collaborator if it fails, else the error of the phrase
generator if it fails, else the wallet of the phrase and of its seed with the empty
passphrase. -/
theorem NewWallet_refines (bip39NewEntropyImpl : Int → Result (List Byte))
    (bip39NewMnemonicImpl : List Byte → Result String)
    (newSeed : String → String → List Byte) (wc : WordCount) :
    NewWallet bip39NewEntropyImpl bip39NewMnemonicImpl newSeed wc.args =
      newWalletReference bip39NewEntropyImpl bip39NewMnemonicImpl newSeed wc := by
  have hbits : (if (match wc.args with | [] => (12 : Int) | l0 :: _ => l0) = 24
      then (256 : Int) else 128) = wc.entropyBits := by
    cases wc <;> rfl
  unfold NewWallet newWalletReference
  simp only [hbits, bind, Except.bind, pure, Except.pure]
  cases bip39NewEntropyImpl wc.entropyBits with
  | error e => rfl
  | ok entropy =>
    dsimp only
    cases bip39NewMnemonicImpl entropy with
    | error e => rfl
    | ok phrase => rfl

/-- C17: if the validity check accepts every phrase that the generator returns, then for
every wallet `w` that `NewWallet` returns, `RestoreWallet(w.Mnemonic)` succeeds and returns
a wallet with the same `Mnemonic` and the same `Seed`. -/
theorem mnemonic_round_trip (bip39NewEntropyImpl : Int → Result (List Byte))
    (bip39NewMnemonicImpl : List Byte → Result String)
    (newSeed : String → String → List Byte) (isMnemonicValid : String → Bool)
    (length : List Int) (w : TronWallet)
    (hvalid : ∀ entropy phrase, bip39NewMnemonicImpl entropy = .ok phrase →
      isMnemonicValid phrase = true)
    (hw : NewWallet bip39NewEntropyImpl bip39NewMnemonicImpl newSeed length = .ok w) :
    ∃ r, RestoreWallet isMnemonicValid newSeed w.Mnemonic = .ok r ∧
      r.Mnemonic = w.Mnemonic ∧ r.Seed = w.Seed := by
  unfold NewWallet at hw
  simp only [bind, Except.bind, pure, Except.pure] at hw
  split at hw
  · exact absurd hw (by simp)
  · rename_i entropy _
    split at hw
    · exact absurd hw (by simp)
    · rename_i phrase hphrase
      have hwe : w = { Mnemonic := phrase, Seed := newSeed phrase "" } :=
        (Except.ok.inj hw).symm
      have hv := hvalid entropy phrase hphrase
      refine ⟨w, ?_, rfl, rfl⟩
      rw [hwe]
      simp [RestoreWallet, hv]

/-- Witness of C17: the default call under stand-ins for the collaborators. -/
theorem mnemonic_round_trip_witness :
    ∃ r, RestoreWallet stubValid stubSeed "twelve words" = .ok r ∧
      r.Mnemonic = "twelve words" ∧ r.Seed = [12, 0] :=
  mnemonic_round_trip stubEntropy stubMnemonic stubSeed stubValid []
    ⟨"twelve words", [12, 0]⟩
    (fun entropy phrase h => by
      have hp : phrase = if entropy.length = 32 then "twenty-four words" else "twelve words" :=
        (Except.ok.inj h).symm
      rw [hp]
      split <;> decide)
    (by decide)

/-- C18: with the collaborators fixed, `TronWallet.Derive(index)` is the path derivation
on the wallet's `Seed` and the index: two wallets with the same `Seed`, whatever their
`Mnemonic`, give for every index the same outcome (the same key or the same failure), hence
the same `PrivateKeyToBytes` output and the same `TronAddressFromPrivate` string. -/
theorem derive_deterministic (hmac : List Byte → List Byte → List Byte)
    (mul : Nat → Nat × Nat) (mk : List Byte → Result ExtKey)
    (keccak256 sha256Sum256 : List Byte → Digest32) (w1 w2 : TronWallet) (index : Nat)
    (hseed : w1.Seed = w2.Seed) :
    TronWallet.Derive hmac mul mk w1 index
      = deriveTronPrivateKey hmac mul mk w1.Seed index ∧
    TronWallet.Derive hmac mul mk w1 index = TronWallet.Derive hmac mul mk w2 index ∧
    (TronWallet.Derive hmac mul mk w1 index).map PrivateKeyToBytes
      = (TronWallet.Derive hmac mul mk w2 index).map PrivateKeyToBytes ∧
    (TronWallet.Derive hmac mul mk w1 index).map (TronAddressFromPrivate keccak256 sha256Sum256)
      = (TronWallet.Derive hmac mul mk w2 index).map
          (TronAddressFromPrivate keccak256 sha256Sum256) := by
  have h : TronWallet.Derive hmac mul mk w1 index = TronWallet.Derive hmac mul mk w2 index := by
    simp only [TronWallet.Derive, hseed]
  exact ⟨rfl, h, by rw [h], by rw [h]⟩

/-- Witness of C18: two wallets with different phrases and the same seed. -/
theorem derive_deterministic_witness :
    (TronWallet.Derive (fixedHmac oneKey zeroKey) stubBaseMult
        (masterKey (fixedHmac oneKey zeroKey)) ⟨"first phrase", [1, 2, 3]⟩ 7).map
        PrivateKeyToBytes
      = (TronWallet.Derive (fixedHmac oneKey zeroKey) stubBaseMult
        (masterKey (fixedHmac oneKey zeroKey)) ⟨"second phrase", [1, 2, 3]⟩ 7).map
        PrivateKeyToBytes :=
  (derive_deterministic (fixedHmac oneKey zeroKey) stubBaseMult
    (masterKey (fixedHmac oneKey zeroKey)) stubDigest stubDigest
    ⟨"first phrase", [1, 2, 3]⟩ ⟨"second phrase", [1, 2, 3]⟩ 7 rfl).2.2.1

/-! ## The range of derived keys, and the hardened index -/

/-- C19, counterexample: with the parent scalar one and `IL = n - 1`, `DeriveHardened` and
`Derive` succeed with a child `Key` of 32 zero bytes; and with an HMAC that returns 64
zero bytes, `deriveTronPrivateKey` succeeds with the scalar zero. -/
theorem zero_child_key :
    ExtKey.DeriveHardened (fixedHmac (natToBE 32 (curveN - 1)) zeroKey) ⟨oneKey, zeroKey⟩ 0
      = .ok ⟨zeroKey, zeroKey⟩ ∧
    ExtKey.Derive (fixedHmac (natToBE 32 (curveN - 1)) zeroKey) stubBaseMult
      ⟨oneKey, zeroKey⟩ 0 = .ok ⟨zeroKey, zeroKey⟩ ∧
    beToNat zeroKey = 0 ∧
    deriveTronPrivateKey (fixedHmac zeroKey zeroKey) stubBaseMult
      (masterKey (fixedHmac zeroKey zeroKey)) [] 0 = .ok ⟨0, 2, 3⟩ := by
  refine ⟨by decide, by decide, by decide, ?_⟩
  set_option maxRecDepth 4000 in decide

/-- C19, amended: if `DeriveHardened` or `Derive` returns without error, the child `Key`,
read as a big-endian integer, is below the group order `n`: it is the parent scalar plus
`IL` modulo `n`, and nothing excludes zero. The scalar that a successful
`deriveTronPrivateKey` returns lies in `[0, n)`. -/
theorem derived_key_lt_order (hmac : List Byte → List Byte → List Byte)
    (mul : Nat → Nat × Nat) :
    (∀ k i c, ExtKey.DeriveHardened hmac k i = .ok c →
      beToNat c.Key < curveN ∧
      beToNat c.Key = (beToNat (k.Key.take 32) +
        beToNat ((hmac k.ChainCode (hardenedData k i)).take 32)) % curveN) ∧
    (∀ k i c, ExtKey.Derive hmac mul k i = .ok c →
      beToNat c.Key < curveN ∧
      beToNat c.Key = (beToNat (k.Key.take 32) +
        beToNat ((hmac k.ChainCode (normalData mul k i)).take 32)) % curveN) ∧
    (∀ (mk : List Byte → Result ExtKey) (seed : List Byte) (index : Nat) (priv : PrivateKey),
      deriveTronPrivateKey hmac mul mk seed index = .ok priv →
      0 ≤ priv.D ∧ priv.D < (curveN : Int)) := by
  have hval : ∀ a b : Nat, beToNat (natToBE 32 ((a % curveN + b % curveN) % curveN))
      = (a + b) % curveN := by
    intro a b
    have hv : (a + b) % curveN < curveN := Nat.mod_lt _ (by decide)
    rw [← Nat.add_mod, beToNat_natToBE, Nat.mod_eq_of_lt (Nat.lt_trans hv curveN_lt)]
  refine ⟨fun k i c h => ?_, fun k i c h => ?_, fun mk seed index priv h => ?_⟩
  · obtain ⟨_, _, _, hc⟩ := DeriveHardened_ok_inv hmac k c i h
    rw [hc]
    exact ⟨by rw [hval]; exact Nat.mod_lt _ (by decide), hval _ _⟩
  · obtain ⟨_, _, _, hc⟩ := Derive_ok_inv hmac mul k c i h
    rw [hc]
    exact ⟨by rw [hval]; exact Nat.mod_lt _ (by decide), hval _ _⟩
  · obtain ⟨root, addr, _, _, hpriv⟩ := deriveTronPrivateKey_ok_inv _ _ _ _ _ _ h
    obtain ⟨s, hs, hD⟩ := privKeyFromBytesToECDSA_D_lt mul addr.Key
    rw [hpriv, hD]
    exact ⟨Int.ofNat_nonneg s, by exact_mod_cast hs⟩

/-- Witness of C19, amended: the child of the scalar one under `IL = 1` is two. -/
theorem derived_key_lt_order_witness :
    beToNat (natToBE 32 2) < curveN ∧
    beToNat (natToBE 32 2) = (beToNat (oneKey.take 32) +
      beToNat ((fixedHmac oneKey zeroKey zeroKey
        (hardenedData ⟨oneKey, zeroKey⟩ 0)).take 32)) % curveN :=
  (derived_key_lt_order (fixedHmac oneKey zeroKey) stubBaseMult).1
    ⟨oneKey, zeroKey⟩ 0 ⟨natToBE 32 2, zeroKey⟩ (by decide)

theorem DeriveHardened_eq_layout (hmac : List Byte → List Byte → List Byte) (k : ExtKey)
    (i encoded : Nat)
    (hdata : hardenedData k i = ((0x00 : Byte) :: k.Key) ++ natToBE 4 encoded) :
    ExtKey.DeriveHardened hmac k i = hardenedLayoutDerive hmac k encoded := by
  unfold ExtKey.DeriveHardened hardenedLayoutDerive
  simp only [hdata]

/-- C20: `DeriveHardened` does not reject an index outside `[0, 2^31)`. For
`2^31 ≤ i < 2^32` the offset addition wraps modulo `2^32`: the four index bytes of the
HMAC data are `be32(i - 2^31)`, whose top bit is clear, and `DeriveHardened(i)` returns
exactly what a derivation in the hardened layout returns whose encoded index is
`i - 2^31`; for an index below `2^31` the encoded index is `i + 2^31`. -/
theorem DeriveHardened_index_wraps (hmac : List Byte → List Byte → List Byte) (k : ExtKey)
    (i : Nat) (hlo : 2 ^ 31 ≤ i) (hhi : i < 2 ^ 32) :
    (i + 0x80000000) % 2 ^ 32 = i - 2 ^ 31 ∧
    hardenedData k i = ((0x00 : Byte) :: k.Key) ++ natToBE 4 (i - 2 ^ 31) ∧
    beToNat (natToBE 4 (i - 2 ^ 31)) = i - 2 ^ 31 ∧
    i - 2 ^ 31 < 2 ^ 31 ∧
    (∃ b, (natToBE 4 (i - 2 ^ 31)).head? = some b ∧ b.val < 128) ∧
    ExtKey.DeriveHardened hmac k i = hardenedLayoutDerive hmac k (i - 2 ^ 31) ∧
    (∀ j, j < 2 ^ 31 →
      ExtKey.DeriveHardened hmac k j = hardenedLayoutDerive hmac k (j + 2 ^ 31)) := by
  have hwrap : (i + 0x80000000) % 2 ^ 32 = i - 2 ^ 31 := by omega
  have hdata : hardenedData k i = ((0x00 : Byte) :: k.Key) ++ natToBE 4 (i - 2 ^ 31) := by
    rw [hardenedData, hwrap, putUint32_eq]
  refine ⟨hwrap, hdata, ?_, by omega, ?_, DeriveHardened_eq_layout hmac k i _ hdata, ?_⟩
  · rw [beToNat_natToBE, Nat.mod_eq_of_lt]
    norm_num
    omega
  · refine ⟨byteOf ((i - 2 ^ 31) / 256 / 256 / 256), rfl, ?_⟩
    simp only [byteOf]
    omega
  · intro j hj
    apply DeriveHardened_eq_layout
    have hmod : (j + 0x80000000) % 2 ^ 32 = j + 2 ^ 31 := by omega
    rw [hardenedData, hmod, putUint32_eq]

/-- Witness of C20: the index `2^31 + 44` is encoded as the non-hardened index 44. -/
theorem DeriveHardened_index_wraps_witness :
    hardenedData ⟨oneKey, zeroKey⟩ (2 ^ 31 + 44)
      = ((0x00 : Byte) :: oneKey) ++ natToBE 4 (2 ^ 31 + 44 - 2 ^ 31) ∧
    ExtKey.DeriveHardened (fixedHmac oneKey zeroKey) ⟨oneKey, zeroKey⟩ (2 ^ 31 + 44)
      = hardenedLayoutDerive (fixedHmac oneKey zeroKey) ⟨oneKey, zeroKey⟩
          (2 ^ 31 + 44 - 2 ^ 31) :=
  ⟨(DeriveHardened_index_wraps (fixedHmac oneKey zeroKey) ⟨oneKey, zeroKey⟩ (2 ^ 31 + 44)
      (by decide) (by decide)).2.1,
    (DeriveHardened_index_wraps (fixedHmac oneKey zeroKey) ⟨oneKey, zeroKey⟩ (2 ^ 31 + 44)
      (by decide) (by decide)).2.2.2.2.2.1⟩

/-! ## The shape of the address string -/

theorem base58Encode_data (b : List Byte) :
    (base58Encode b).data =
      List.replicate (leadingZeros b) '1' ++
        ((Nat.digits 58 (beToNat b)).map b58Char).reverse := by
  simp only [base58Encode, base58DigitsAux_eq _ _ (Nat.le_refl _), List.reverse_append,
    List.reverse_replicate]

/-- A number in `[58^k, 58^(k+1))` has `k + 1` digits in base 58, the most significant of
which is its quotient by `58^k`. -/
theorem digits58_top (k : Nat) : ∀ x, 58 ^ k ≤ x → x < 58 ^ (k + 1) →
    ∃ ds, ds.length = k ∧ Nat.digits 58 x = ds ++ [x / 58 ^ k] := by
  induction k with
  | zero =>
    intro x hlo hhi
    have h1 : 1 ≤ x := by simpa using hlo
    have h58 : x < 58 := by simpa using hhi
    exact ⟨[], rfl, by rw [Nat.digits_of_lt 58 x (by omega) h58]; simp⟩
  | succ k ih =>
    intro x hlo hhi
    have hpos : 0 < 58 ^ k := Nat.pow_pos (by decide)
    have hx : 0 < x := by
      have : 0 < 58 ^ (k + 1) := Nat.pow_pos (by decide)
      omega
    have hlo2 : 58 ^ k ≤ x / 58 := by
      rw [Nat.le_div_iff_mul_le (by decide)]
      rw [pow_succ] at hlo
      exact hlo
    have hhi2 : x / 58 < 58 ^ (k + 1) := by
      rw [Nat.div_lt_iff_lt_mul (by decide)]
      rw [pow_succ] at hhi
      exact hhi
    obtain ⟨ds, hlen, hds⟩ := ih (x / 58) hlo2 hhi2
    refine ⟨x % 58 :: ds, by rw [List.length_cons, hlen], ?_⟩
    rw [Nat.digits_def' (by decide) hx, hds, Nat.div_div_eq_div_mul, pow_succ,
      Nat.mul_comm 58 (58 ^ k)]
    rfl

/-- The value of 25 bytes that start with `0x41`. -/
theorem beToNat_version_range (bs : List Byte) (hlen : bs.length = 24) :
    65 * 2 ^ 192 ≤ beToNat ((0x41 : Byte) :: bs) ∧
    beToNat ((0x41 : Byte) :: bs) < 66 * 2 ^ 192 := by
  have hlt := beToNat_lt bs
  rw [hlen] at hlt
  have hpow : (256 : Nat) ^ 24 = 2 ^ 192 := by norm_num
  have hval : beToNat ((0x41 : Byte) :: bs) = 65 * 2 ^ 192 + beToNat bs := by
    rw [beToNat_cons, hlen, hpow]
    rfl
  rw [hval]
  omega

/-- C21: for every private key, the string that `TronAddressFromPrivate` returns has
exactly 34 characters and starts with `'T'`. The encoded 25 bytes start with `0x41`, so
their value lies in `[65 * 2^192, 66 * 2^192)`, which is inside
`[26 * 58^33, 27 * 58^33)`: the Base58 encoding has 34 digits, the leading digit is 26,
which is `'T'` in the alphabet, and there is no leading `'1'` padding. -/
theorem TronAddressFromPrivate_shape (keccak256 sha256Sum256 : List Byte → Digest32)
    (priv : PrivateKey) :
    (TronAddressFromPrivate keccak256 sha256Sum256 priv).length = 34 ∧
    (TronAddressFromPrivate keccak256 sha256Sum256 priv).data.head? = some 'T' ∧
    (tronAddressBytes keccak256 sha256Sum256 priv).length = 25 ∧
    (tronAddressBytes keccak256 sha256Sum256 priv).head? = some 0x41 ∧
    65 * 2 ^ 192 ≤ beToNat (tronAddressBytes keccak256 sha256Sum256 priv) ∧
    beToNat (tronAddressBytes keccak256 sha256Sum256 priv) < 66 * 2 ^ 192 ∧
    26 * 58 ^ 33 ≤ 65 * 2 ^ 192 ∧ 66 * 2 ^ 192 ≤ 27 * 58 ^ 33 ∧
    (Nat.digits 58 (beToNat (tronAddressBytes keccak256 sha256Sum256 priv))).length = 34 ∧
    (Nat.digits 58 (beToNat (tronAddressBytes keccak256 sha256Sum256 priv))).getLast? = some 26 ∧
    b58Char 26 = 'T' ∧
    leadingZeros (tronAddressBytes keccak256 sha256Sum256 priv) = 0 := by
  have hlen := tronAddressBytes_length keccak256 sha256Sum256 priv
  obtain ⟨rest, hrest⟩ : ∃ rest, tronAddressBytes keccak256 sha256Sum256 priv
      = (0x41 : Byte) :: rest := ⟨_, rfl⟩
  have hrl : rest.length = 24 := by
    rw [hrest, List.length_cons] at hlen
    omega
  obtain ⟨hlo, hhi⟩ := beToNat_version_range rest hrl
  have h1 : 26 * 58 ^ 33 ≤ 65 * 2 ^ 192 := by norm_num
  have h2 : 66 * 2 ^ 192 ≤ 27 * 58 ^ 33 := by norm_num
  have hz : leadingZeros ((0x41 : Byte) :: rest) = 0 := by
    rw [leadingZeros, if_neg (by decide)]
  have hp33 : 0 < 58 ^ 33 := Nat.pow_pos (by decide)
  have hp34 : 58 ^ (33 + 1) = 58 * 58 ^ 33 := by rw [pow_succ, Nat.mul_comm]
  obtain ⟨ds, hds, hdig⟩ := digits58_top 33 (beToNat ((0x41 : Byte) :: rest))
    (by omega) (by rw [hp34]; omega)
  have hq : beToNat ((0x41 : Byte) :: rest) / 58 ^ 33 = 26 := by
    apply Nat.div_eq_of_lt_le
    · rw [Nat.mul_comm]; omega
    · rw [Nat.mul_comm]; omega
  rw [hq] at hdig
  have hdata : (TronAddressFromPrivate keccak256 sha256Sum256 priv).data
      = 'T' :: (ds.map b58Char).reverse := by
    rw [TronAddressFromPrivate, base58Encode_data, hrest, hz, hdig]
    simp only [List.replicate_zero, List.nil_append, List.map_append, List.map_cons,
      List.map_nil, List.reverse_append, List.reverse_cons, List.reverse_nil,
      List.cons_append]
    rfl
  rw [hrest] at hlen ⊢
  refine ⟨?_, ?_, hlen, rfl, hlo, hhi, h1, h2, ?_, ?_, rfl, hz⟩
  · show (TronAddressFromPrivate keccak256 sha256Sum256 priv).data.length = 34
    rw [hdata, List.length_cons, List.length_reverse, List.length_map, hds]
  · rw [hdata]
    rfl
  · rw [hdig, List.length_append, hds]
    rfl
  · rw [hdig, List.getLast?_append]
    rfl

end Tronwallet
